import Mathlib

/-!
# Verification of the quarto-inline-output session execution protocol

This file gives a shallow embedding, in Lean 4, of the output-capture core of
the `quarto-inline-output` VS Code extension, and proves (or refutes) the
frozen specification claims about it.

Two channel implementations exist in the source and both are embedded here:

* the *side-log* channel (`outputWatcher.ts`: `OutputWatcher.processNewOutput`,
  `OutputWatcher.filterOutputs`, `OutputWatcher.waitForCell`,
  `cellOutputsToNotebookOutput`, and the side-log notebook controller), which
  polls an append-only file of `###TYPE:ID###\n<content>\n###END###\n` frames;
* the *direct-scrape* channel (`rPseudoterminalSimple.ts`:
  `RPseudoterminalSimple.executeCode`, `finishExecution`, `parseOutputBuffer`,
  `handleInput`, `setupREnvironment`), which scrapes the R process stdout.

Strings are modelled as `List Char`, file systems as association lists from
path to byte list, timers and promise resolutions as explicit values.
-/

/-! ## Character classes and JavaScript string primitives -/

/-- JavaScript's `\w` word-character class (ASCII letters, digits, `_`),
as used by the block regex `###(\w+):([^#]+)###`. -/
def isWordChar (c : Char) : Bool := c.isAlphanum || c == '_'

/-- Whitespace as recognised by JavaScript's `trim()` / `\s` (ASCII part). -/
def wsChar (c : Char) : Bool :=
  c == ' ' || c == '\t' || c == '\n' || c == '\r' || c == '\x0b' || c == '\x0c'

/-- Model of JavaScript `String.prototype.trim()`. -/
def jsTrim (s : List Char) : List Char :=
  ((s.dropWhile wsChar).reverse.dropWhile wsChar).reverse

/-- `stripLit lit s` returns the remainder of `s` after a literal `lit`
prefix, when present (one regex literal element). -/
def stripLit (lit : List Char) (s : List Char) : Option (List Char) :=
  if lit.isPrefixOf s then some (s.drop lit.length) else none

theorem stripLit_eq_some {lit s r : List Char} :
    stripLit lit s = some r ↔ s = lit ++ r := by
  unfold stripLit
  by_cases hp : lit.isPrefixOf s
  · rw [if_pos hp]
    obtain ⟨t, ht⟩ := List.isPrefixOf_iff_prefix.mp hp
    subst ht
    simp
  · rw [if_neg hp]
    constructor
    · intro h; simp at h
    · intro h
      exact absurd (List.isPrefixOf_iff_prefix.mpr ⟨r, h.symm⟩) hp

/-- Split `s` at the first occurrence of the literal `lit`:
`splitAtLit lit s = some (pre, post)` with `s = pre ++ lit ++ post` and the
occurrence leftmost.  This is the semantics of a lazy `[\s\S]*?` followed by
the literal, and of `String.prototype.indexOf`. -/
def splitAtLit (lit : List Char) : List Char → Option (List Char × List Char)
  | [] => none
  | c :: cs =>
    if lit.isPrefixOf (c :: cs) then some ([], (c :: cs).drop lit.length)
    else
      match splitAtLit lit cs with
      | some (pre, post) => some (c :: pre, post)
      | none => none

theorem splitAtLit_shape (lit : List Char) :
    ∀ s pre post, splitAtLit lit s = some (pre, post) → s = pre ++ lit ++ post := by
  intro s
  induction s with
  | nil => intro pre post h; simp [splitAtLit] at h
  | cons c cs ih =>
    intro pre post h
    unfold splitAtLit at h
    by_cases hp : lit.isPrefixOf (c :: cs)
    · rw [if_pos hp] at h
      obtain ⟨t, ht⟩ := List.isPrefixOf_iff_prefix.mp hp
      obtain ⟨h1, h2⟩ := Prod.mk.injEq .. ▸ (Option.some.injEq .. ▸ h)
      subst h1
      rw [← ht, List.drop_left] at h2
      simp [← ht, h2]
    · rw [if_neg hp] at h
      cases hrec : splitAtLit lit cs with
      | none => rw [hrec] at h; simp at h
      | some pr =>
        obtain ⟨pre', post'⟩ := pr
        rw [hrec] at h
        obtain ⟨h1, h2⟩ := Prod.mk.injEq .. ▸ (Option.some.injEq .. ▸ h)
        subst h2
        have := ih pre' post' hrec
        simp [← h1, this]

theorem splitAtLit_post_length (lit : List Char) (hne : lit ≠ [])
    (s pre post : List Char) (h : splitAtLit lit s = some (pre, post)) :
    post.length < s.length := by
  have := splitAtLit_shape lit s pre post h
  subst this
  have : 0 < lit.length := List.length_pos.mpr hne
  simp only [List.length_append]
  omega

/-! ## Side-log channel: the Block Parser (`OutputWatcher.processNewOutput`)

The watcher accumulates file increments into `pendingContent` and repeatedly
executes the JavaScript regex

    /###(\w+):([^#]+)###\n([\s\S]*?)\n###END###/g

collecting every match into a `CellOutput` record and keeping the text after
the last match as the new `pendingContent`. -/

/-- The terminator `"\n###END###"` that closes a frame's content group
(the regex tail `\n###END###`). -/
def endLit : List Char := ['\n', '#', '#', '#', 'E', 'N', 'D', '#', '#', '#']

/-- A parsed output block, mirroring the source's `CellOutput` interface
(`{ type, content, cellId }`; `type` is a reserved word in Lean, hence
`rtype`). -/
structure CellOutputRec where
  rtype : List Char
  content : List Char
  cellId : List Char
deriving DecidableEq, Repr

/-- Attempt to match the header part `###(\w+):([^#]+)###\n` of the block
regex at the head of `s`; on success return the two groups and the rest.
The greedy `\w+` / `[^#]+` runs are each followed by a mandatory delimiter
their own class excludes, so the regex engine's backtracking is vacuous and
maximal-run parsing is exact. -/
def parseHeader (s : List Char) : Option (List Char × List Char × List Char) :=
  (stripLit ['#', '#', '#'] s).bind fun s1 =>
    if s1.takeWhile isWordChar = [] then none
    else
      (stripLit [':'] (s1.dropWhile isWordChar)).bind fun s3 =>
        if s3.takeWhile (fun c => c != '#') = [] then none
        else
          (stripLit ['#', '#', '#', '\n'] (s3.dropWhile (fun c => c != '#'))).map
            fun s5 => (s1.takeWhile isWordChar, s3.takeWhile (fun c => c != '#'), s5)

/-- One attempt of the block regex anchored at the head of `s`: header match
followed by the lazy content group, which extends to the first
`"\n###END###"`. -/
def frameAt (s : List Char) : Option (List Char × List Char × List Char × List Char) :=
  (parseHeader s).bind fun pr =>
    (splitAtLit endLit pr.2.2).map fun qr => (pr.1, pr.2.1, qr.1, qr.2)

theorem parseHeader_shape {s ty cid rest : List Char}
    (h : parseHeader s = some (ty, cid, rest)) :
    s = '#' :: '#' :: '#' :: (ty ++ ':' :: (cid ++ '#' :: '#' :: '#' :: '\n' :: rest)) ∧
      ty ≠ [] ∧ cid ≠ [] ∧ (∀ c ∈ ty, isWordChar c = true) ∧ (∀ c ∈ cid, c ≠ '#') := by
  unfold parseHeader at h
  cases hs1o : stripLit ['#', '#', '#'] s with
  | none => rw [hs1o] at h; simp at h
  | some s1 =>
  rw [hs1o, Option.some_bind] at h
  have hs1 := stripLit_eq_some.mp hs1o
  split at h
  · simp at h
  case isFalse hty =>
  cases hs3o : stripLit [':'] (s1.dropWhile isWordChar) with
  | none => rw [hs3o] at h; simp at h
  | some s3 =>
  rw [hs3o, Option.some_bind] at h
  have hs3 := stripLit_eq_some.mp hs3o
  split at h
  · simp at h
  case isFalse hcid =>
  rw [Option.map_eq_some'] at h
  obtain ⟨s5, hs5o, h⟩ := h
  have hs5 := stripLit_eq_some.mp hs5o
  simp only [Prod.mk.injEq] at h
  obtain ⟨e1, e2, e3⟩ := h
  subst e3
  have hsplit1 : s1.takeWhile isWordChar ++ s1.dropWhile isWordChar = s1 :=
    List.takeWhile_append_dropWhile ..
  have hsplit3 : s3.takeWhile (fun c => c != '#') ++
      s3.dropWhile (fun c => c != '#') = s3 := List.takeWhile_append_dropWhile ..
  refine ⟨?_, ?_, ?_, ?_, ?_⟩
  · rw [hs1, ← hsplit1, hs3, ← hsplit3, hs5, e1, e2]
    simp
  · rw [← e1]; exact hty
  · rw [← e2]; exact hcid
  · rw [← e1]; intro c hc; exact List.mem_takeWhile_imp hc
  · rw [← e2]; intro c hc
    have := List.mem_takeWhile_imp hc
    simpa using this

theorem parseHeader_rest_length {s ty cid rest : List Char}
    (h : parseHeader s = some (ty, cid, rest)) : rest.length < s.length := by
  have := (parseHeader_shape h).1
  subst this
  simp only [List.length_cons, List.length_append]
  omega

theorem frameAt_iff {s ty cid content rest : List Char} :
    frameAt s = some (ty, cid, content, rest) ↔
      ∃ after, parseHeader s = some (ty, cid, after) ∧
        splitAtLit endLit after = some (content, rest) := by
  simp only [frameAt, Option.bind_eq_some, Option.map_eq_some']
  constructor
  · rintro ⟨⟨a, b, c⟩, h1, ⟨p, q⟩, h2, h3⟩
    simp only [Prod.mk.injEq] at h3
    obtain ⟨e1, e2, e3, e4⟩ := h3
    subst e1; subst e2; subst e3; subst e4
    exact ⟨c, h1, h2⟩
  · rintro ⟨after, h1, h2⟩
    exact ⟨(ty, cid, after), h1, (content, rest), h2, rfl⟩

/-- Leftmost match of the whole block regex in `s`: `regex.exec` tries each
successive start position until a full match (header plus terminated lazy
content group) is found.  Returns the groups and the rest of the string
after the match. -/
def findFrame : List Char → Option (List Char × List Char × List Char × List Char)
  | [] => none
  | c :: cs => (frameAt (c :: cs)).elim (findFrame cs) some

theorem findFrame_rest_length :
    ∀ s ty cid content rest, findFrame s = some (ty, cid, content, rest) →
      rest.length < s.length := by
  intro s
  induction s with
  | nil => intro ty cid content rest h; simp [findFrame] at h
  | cons c cs ih =>
    intro ty cid content rest h
    unfold findFrame at h
    cases hf : frameAt (c :: cs) with
    | none =>
      rw [hf] at h
      simp only [Option.elim] at h
      exact Nat.lt_succ_of_lt (ih ty cid content rest h)
    | some v =>
      rw [hf] at h
      simp only [Option.elim, Option.some.injEq] at h
      subst h
      obtain ⟨after, h1, h2⟩ := frameAt_iff.mp hf
      have l1 := parseHeader_rest_length h1
      have l2 := splitAtLit_post_length endLit (by simp [endLit]) after content rest h2
      omega

/-- The record built for one regex match (`{ type, content: blockContent.trim(),
cellId: cellId.trim() }` in `processNewOutput`). -/
def mkCellOutput (ty cid content : List Char) : CellOutputRec :=
  { rtype := ty, content := jsTrim content, cellId := jsTrim cid }

/-- The `while ((match = blockRegex.exec(...)))` loop of `processNewOutput`:
collect every successive match into a record list; the text after the last
match (or the whole string when there is no match) is the retained
`pendingContent` (`pendingContent.slice(lastMatchEnd)`). -/
def parseBlocks (s : List Char) : List CellOutputRec × List Char :=
  match h : findFrame s with
  | none => ([], s)
  | some (ty, cid, content, rest) =>
    let r := parseBlocks rest
    (mkCellOutput ty cid content :: r.1, r.2)
termination_by s.length
decreasing_by exact findFrame_rest_length s ty cid content rest h

/-- One invocation of `OutputWatcher.processNewOutput` seen as a function of
the retained `pendingContent` and the newly read file increment: the early
returns for an empty increment and for all-whitespace accumulated text, then
the regex loop.  Returns the emitted records and the new `pendingContent`. -/
def processChunk (pending chunk : List Char) : List CellOutputRec × List Char :=
  if chunk = [] then ([], pending)
  else if jsTrim (pending ++ chunk) = [] then ([], pending ++ chunk)
  else parseBlocks (pending ++ chunk)

/-- One step of the poll loop: run `processChunk` on the retained pending
text and the new increment, appending the freshly emitted records. -/
def watchStep (st : List CellOutputRec × List Char) (chunk : List Char) :
    List CellOutputRec × List Char :=
  let r := processChunk st.2 chunk
  (st.1 ++ r.1, r.2)

/-- Feeding a sequence of increments to the incremental parser, starting from
an empty `pendingContent`, collecting every record emitted along the way. -/
def runChunks (chunks : List (List Char)) : List CellOutputRec × List Char :=
  chunks.foldl watchStep ([], [])

/-! ## Well-formed frame streams

The spec's side-log wire format: each record is
`###TYPE:ID###\n CONTENT \n###END###\n`; a well-formed stream is a
concatenation of such frames whose contents contain no marker substring. -/

/-- An abstract side-log frame. -/
structure Frame where
  ftype : List Char
  fid : List Char
  fcontent : List Char
deriving DecidableEq, Repr

/-- The header text `###TYPE:ID###\n` of a frame. -/
def frameHeader (ty cid : List Char) : List Char :=
  ['#', '#', '#'] ++ ty ++ [':'] ++ cid ++ ['#', '#', '#', '\n']

/-- A frame's wire text up to and including its `###END###` — the region one
regex match covers (the trailing newline of the frame is outside the match). -/
def encCore (f : Frame) : List Char :=
  frameHeader f.ftype f.fid ++ f.fcontent ++ endLit

/-- A frame's full wire text, with the trailing newline. -/
def encFrame (f : Frame) : List Char := encCore f ++ ['\n']

/-- The wire text of a whole record stream. -/
def encStream (fs : List Frame) : List Char := (fs.map encFrame).flatten

/-- Well-formedness, from the spec's constraints: `TYPE` is a nonempty word,
`ID` is nonempty and free of `#` and newline, and the content contains no
marker substring (`###`). -/
def WFFrame (f : Frame) : Prop :=
  f.ftype ≠ [] ∧ (∀ c ∈ f.ftype, isWordChar c = true) ∧
    f.fid ≠ [] ∧ (∀ c ∈ f.fid, c ≠ '#' ∧ c ≠ '\n') ∧
    ¬ (['#', '#', '#'] <:+: f.fcontent)

instance (f : Frame) : Decidable (WFFrame f) := by unfold WFFrame; infer_instance

/-- The record the Block Parser emits for a frame. -/
def frameRec (f : Frame) : CellOutputRec := mkCellOutput f.ftype f.fid f.fcontent

/-! ### String combinatorics: `"\n###END###"` occurs in a well-formed frame
only at its end -/

theorem suffix_append_split {b x y : List Char} (h : b <:+ x ++ y) :
    b <:+ y ∨ ∃ b', b' ≠ [] ∧ b' <:+ x ∧ b = b' ++ y := by
  induction x with
  | nil => left; simpa using h
  | cons c x' ih =>
    rw [List.cons_append, List.suffix_cons_iff] at h
    rcases h with h | h
    · right
      exact ⟨c :: x', by simp, List.suffix_rfl, by simpa using h⟩
    · rcases ih h with h2 | ⟨b', hne, hsuf, heq⟩
      · left; exact h2
      · right; exact ⟨b', hne, hsuf.trans (List.suffix_cons c x'), heq⟩

theorem append_split_of_length_le {s t A B : List Char} (h : s ++ t = A ++ B)
    (hlen : A.length ≤ s.length) : ∃ s', s = A ++ s' ∧ s' ++ t = B := by
  induction A generalizing s with
  | nil => exact ⟨s, by simp, by simpa using h⟩
  | cons a A' ih =>
    cases s with
    | nil => simp at hlen
    | cons c s0 =>
      simp only [List.cons_append, List.cons.injEq] at h
      obtain ⟨h1, h2⟩ := h
      subst h1
      obtain ⟨s', e1, e2⟩ := ih h2 (by simpa using hlen)
      exact ⟨s', by simp [e1], e2⟩

/-- A nonempty `###`-free block cannot begin with the terminator once the
real terminator is appended: the terminator cannot start early inside
content. -/
theorem endLit_not_prefix_mid {content : List Char} (z : List Char)
    (hne : content ≠ []) (hnt : ¬ (['#', '#', '#'] <:+: content)) :
    ¬ (endLit <+: (content ++ endLit ++ z)) := by
  intro hp
  obtain ⟨t, ht⟩ := hp
  match content, hne with
  | [a], _ => simp [endLit] at ht
  | [a, b], _ => simp [endLit] at ht
  | [a, b, c], _ => simp [endLit] at ht
  | a :: b :: c :: d :: rest, _ =>
    simp only [endLit, List.cons_append, List.append_assoc, List.cons.injEq] at ht
    obtain ⟨e1, e2, e3, e4, _⟩ := ht
    exact hnt ⟨[a], rest, by simp [← e2, ← e3, ← e4]⟩

/-- Same statement for the terminator with its leading newline removed
(what remains to be matched after a newline immediately before content). -/
theorem endTail_not_prefix {content : List Char} (z : List Char)
    (hnt : ¬ (['#', '#', '#'] <:+: content)) :
    ¬ (['#', '#', '#', 'E', 'N', 'D', '#', '#', '#'] <+: (content ++ endLit ++ z)) := by
  intro hp
  obtain ⟨t, ht⟩ := hp
  match content with
  | [] => simp [endLit] at ht
  | [a] => simp [endLit] at ht
  | [a, b] => simp [endLit] at ht
  | a :: b :: c :: rest =>
    simp only [endLit, List.cons_append, List.append_assoc, List.cons.injEq] at ht
    obtain ⟨e1, e2, e3, _⟩ := ht
    exact hnt ⟨[], rest, by simp [← e1, ← e2, ← e3]⟩

theorem endLit_prefix_head {x : Char} {rest : List Char}
    (h : endLit <+: (x :: rest)) : x = '\n' := by
  obtain ⟨t, ht⟩ := h
  simp only [endLit, List.cons_append, List.cons.injEq] at ht
  exact ht.1.symm

/-- `splitAtLit` really does find the leftmost occurrence: prepending a
`###`-free block before the terminator leaves the split unchanged. -/
theorem splitAtLit_exact {content : List Char} (z : List Char)
    (hnt : ¬ (['#', '#', '#'] <:+: content)) :
    splitAtLit endLit (content ++ endLit ++ z) = some (content, z) := by
  induction content with
  | nil =>
    show splitAtLit endLit (endLit ++ z) = _
    rw [show endLit ++ z = '\n' :: (['#', '#', '#', 'E', 'N', 'D', '#', '#', '#'] ++ z)
        from by simp [endLit]]
    unfold splitAtLit
    rw [if_pos]
    · rw [show '\n' :: (['#', '#', '#', 'E', 'N', 'D', '#', '#', '#'] ++ z) = endLit ++ z
          from by simp [endLit]]
      simp [List.drop_left]
    · exact List.isPrefixOf_iff_prefix.mpr ⟨z, by simp [endLit]⟩
  | cons c cs ih =>
    have hcs : ¬ (['#', '#', '#'] <:+: cs) := fun hi =>
      hnt (hi.trans (List.suffix_cons c cs).isInfix)
    have hnp : ¬ (endLit.isPrefixOf ((c :: cs) ++ endLit ++ z)) := by
      rw [List.isPrefixOf_iff_prefix]
      exact endLit_not_prefix_mid z (by simp) hnt
    rw [show (c :: cs) ++ endLit ++ z = c :: (cs ++ endLit ++ z) from by simp]
    unfold splitAtLit
    rw [if_neg (by simpa using hnp), ih hcs]

theorem splitAtLit_eq_none {lit : List Char} :
    ∀ {s : List Char}, (∀ u v, s ≠ u ++ lit ++ v) → splitAtLit lit s = none := by
  intro s
  induction s with
  | nil => intro _; rfl
  | cons c cs ih =>
    intro hocc
    unfold splitAtLit
    rw [if_neg]
    · rw [ih (fun u v h => hocc (c :: u) v (by simp [h]))]
    · intro hp
      obtain ⟨t, ht⟩ := List.isPrefixOf_iff_prefix.mp hp
      exact hocc [] t (by simp [← ht])

theorem head_nl_of_append_pre {l r : List Char} (hl : l ≠ [])
    (hpre : endLit <+: (l ++ r)) : ∃ c l', l = c :: l' ∧ c = '\n' := by
  cases l with
  | nil => exact absurd rfl hl
  | cons c l' => exact ⟨c, l', rfl, endLit_prefix_head (by simpa using hpre)⟩

/-- A word (as matched by `\w+`) followed by `:` can never continue the
terminator: `END###` cannot be read out of `TYPE:`. -/
theorem ty_no_end {ty : List Char} (htyw : ∀ c ∈ ty, isWordChar c = true)
    (z t : List Char) :
    ['E', 'N', 'D', '#', '#', '#'] ++ t ≠ ty ++ ':' :: z := by
  match ty with
  | [] => intro h; simp at h
  | [a] => intro h; simp at h
  | [a, b] => intro h; simp at h
  | [a, b, c] => intro h; simp at h
  | a :: b :: c :: d :: tyr =>
    intro h
    simp only [List.cons_append, List.cons.injEq] at h
    obtain ⟨_, _, _, e4, _⟩ := h
    have hd : isWordChar d = true := htyw d (by simp)
    rw [← e4] at hd
    simp [isWordChar] at hd

/-- Core occurrence exclusion: no nonempty suffix of
`g ++ header ++ content` (with `g` empty or a single newline, and a
well-formed frame) can begin the terminator `"\n###END###"`. -/
theorem no_lit_at_suffix {g ty cid content : List Char}
    (hg : g = [] ∨ g = ['\n'])
    (htyw : ∀ c ∈ ty, isWordChar c = true)
    (hid : ∀ c ∈ cid, c ≠ '#' ∧ c ≠ '\n')
    (hco : ¬ (['#', '#', '#'] <:+: content)) :
    ∀ b, b ≠ [] → b <:+ (g ++ frameHeader ty cid ++ content) →
      ¬ (endLit <+: (b ++ endLit)) := by
  intro b hbne hbsuf hpre
  rcases suffix_append_split hbsuf with hb | ⟨b', hb'ne, hb'suf, rfl⟩
  · -- b is a suffix of the content: the terminator cannot start inside it
    have hbnt : ¬ (['#', '#', '#'] <:+: b) := fun hi => hco (hi.trans hb.isInfix)
    exact absurd hpre (by simpa using endLit_not_prefix_mid [] hbne hbnt)
  · rcases suffix_append_split hb'suf with hb2 | ⟨b'', hb''ne, hb''suf, rfl⟩
    · -- b' is a suffix of the header
      rw [show frameHeader ty cid =
          (['#', '#', '#'] ++ ty ++ [':'] ++ cid) ++ ['#', '#', '#', '\n']
          from by simp [frameHeader]] at hb2
      rcases suffix_append_split hb2 with hb3 | ⟨b3, hb3ne, hb3suf, rfl⟩
      · -- b' inside the closing `###\n`
        simp only [List.suffix_cons_iff, List.suffix_nil] at hb3
        rcases hb3 with rfl | rfl | rfl | rfl | rfl
        · obtain ⟨c0, l0, he, rfl⟩ := head_nl_of_append_pre (by simp) hpre
          simp at he
        · obtain ⟨c0, l0, he, rfl⟩ := head_nl_of_append_pre (by simp) hpre
          simp at he
        · obtain ⟨c0, l0, he, rfl⟩ := head_nl_of_append_pre (by simp) hpre
          simp at he
        · -- b = '\n' :: content
          obtain ⟨t, ht⟩ := hpre
          simp only [endLit, List.cons_append, List.nil_append, List.cons.injEq,
            List.append_assoc] at ht
          obtain ⟨_, ht⟩ := ht
          exact endTail_not_prefix [] hco (by exact ⟨t, by simpa using ht⟩)
        · exact hb'ne rfl
      · -- b' = b3 ++ `###\n` with b3 a nonempty suffix of `###TYPE:ID`
        rcases suffix_append_split hb3suf with hb4 | ⟨b4, hb4ne, hb4suf, rfl⟩
        · -- b3 is a nonempty suffix of the id: heads are id characters
          obtain ⟨c0, l0, rfl, rfl⟩ := head_nl_of_append_pre (by simpa using hb3ne)
            (by simpa using hpre)
          exact (hid '\n' (hb4.subset (by simp))).2 rfl
        · rcases suffix_append_split hb4suf with hb5 | ⟨b5, hb5ne, hb5suf, rfl⟩
          · -- b4 inside `:`
            simp only [List.suffix_cons_iff, List.suffix_nil] at hb5
            rcases hb5 with rfl | rfl
            · obtain ⟨c0, l0, he, rfl⟩ := head_nl_of_append_pre (by simp) hpre
              simp at he
            · exact hb4ne rfl
          · rcases suffix_append_split hb5suf with hb6 | ⟨b6, hb6ne, hb6suf, rfl⟩
            · -- b5 is a nonempty suffix of the type: heads are word chars
              obtain ⟨c0, l0, rfl, rfl⟩ := head_nl_of_append_pre (by simpa using hb5ne)
                (by simpa using hpre)
              have := htyw '\n' (hb6.subset (by simp))
              simp [isWordChar] at this
            · -- b6 inside the opening `###`
              simp only [List.suffix_cons_iff, List.suffix_nil] at hb6suf
              rcases hb6suf with rfl | rfl | rfl | rfl
              · obtain ⟨c0, l0, he, rfl⟩ := head_nl_of_append_pre (by simp) hpre
                simp at he
              · obtain ⟨c0, l0, he, rfl⟩ := head_nl_of_append_pre (by simp) hpre
                simp at he
              · obtain ⟨c0, l0, he, rfl⟩ := head_nl_of_append_pre (by simp) hpre
                simp at he
              · exact hb6ne rfl
    · -- b' = b'' ++ header with b'' a nonempty suffix of g
      rcases hg with rfl | rfl
      · simp only [List.suffix_nil] at hb''suf
        exact hb''ne hb''suf
      · have : b'' = ['\n'] := by
          simp only [List.suffix_cons_iff, List.suffix_nil] at hb''suf
          rcases hb''suf with rfl | rfl
          · rfl
          · exact absurd rfl hb''ne
        subst this
        obtain ⟨t, ht⟩ := hpre
        simp only [endLit, frameHeader, List.cons_append, List.nil_append,
          List.append_assoc, List.cons.injEq] at ht
        obtain ⟨_, _, _, _, ht⟩ := ht
        exact ty_no_end htyw _ t (by simpa using ht)

/-- The leftmost occurrence of `lit` in `P ++ Q` cannot start strictly inside
`P` when no nonempty suffix of `P` can begin it. -/
theorem first_occurrence_ge {lit Q : List Char} :
    ∀ {P : List Char},
      (∀ b, b ≠ [] → b <:+ P → ¬ (lit <+: (b ++ Q))) →
      ∀ u v, P ++ Q = u ++ lit ++ v → P.length ≤ u.length := by
  intro P
  induction P with
  | nil => intro _ u v _; simp
  | cons c P' ih =>
    intro hP u v heq
    cases u with
    | nil =>
      exfalso
      apply hP (c :: P') (by simp) List.suffix_rfl
      refine ⟨v, ?_⟩
      simpa using heq.symm
    | cons a u' =>
      simp only [List.cons_append, List.cons.injEq] at heq
      obtain ⟨h1, h2⟩ := heq
      subst h1
      have hP' : ∀ b, b ≠ [] → b <:+ P' → ¬ (lit <+: (b ++ Q)) := fun b hne hsuf =>
        hP b hne (hsuf.trans (List.suffix_cons c P'))
      simpa using Nat.succ_le_succ (ih hP' u' v h2)

/-- In the wire text of one well-formed frame the terminator occurs exactly
once, at the end. -/
theorem stream_occurrence {g ty cid content u v : List Char}
    (hg : g = [] ∨ g = ['\n'])
    (htyw : ∀ c ∈ ty, isWordChar c = true)
    (hid : ∀ c ∈ cid, c ≠ '#' ∧ c ≠ '\n')
    (hco : ¬ (['#', '#', '#'] <:+: content))
    (heq : g ++ frameHeader ty cid ++ content ++ endLit = u ++ endLit ++ v) :
    u = g ++ frameHeader ty cid ++ content ∧ v = [] := by
  have hge := first_occurrence_ge (no_lit_at_suffix hg htyw hid hco) u v heq
  have hlen := congrArg List.length heq
  simp only [List.length_append] at hge hlen
  have hv : v = [] := List.length_eq_zero.mp (by omega)
  subst hv
  refine ⟨?_, rfl⟩
  rw [List.append_nil] at heq
  exact (List.append_cancel_right heq).symm

theorem stripLit_self_append (lit x : List Char) : stripLit lit (lit ++ x) = some x :=
  stripLit_eq_some.mpr rfl

theorem takeWhile_append_full (p : Char → Bool) (l : List Char) (x : Char) (z : List Char)
    (hl : ∀ c ∈ l, p c = true) (hx : p x = false) :
    (l ++ x :: z).takeWhile p = l ∧ (l ++ x :: z).dropWhile p = x :: z := by
  induction l with
  | nil => simp [List.takeWhile_cons, List.dropWhile_cons, hx]
  | cons a l' ih =>
    have ha : p a = true := hl a (by simp)
    have := ih (fun c hc => hl c (by simp [hc]))
    simp [List.takeWhile_cons, List.dropWhile_cons, ha, this.1, this.2]

/-- The header matcher succeeds on a well-formed header. -/
theorem parseHeader_complete {ty cid : List Char} (rest : List Char)
    (htyne : ty ≠ []) (htyw : ∀ c ∈ ty, isWordChar c = true)
    (hidne : cid ≠ []) (hid : ∀ c ∈ cid, c ≠ '#' ∧ c ≠ '\n') :
    parseHeader (frameHeader ty cid ++ rest) = some (ty, cid, rest) := by
  have h1 : frameHeader ty cid ++ rest =
      ['#', '#', '#'] ++ (ty ++ ':' :: (cid ++ '#' :: '#' :: '#' :: '\n' :: rest)) := by
    simp [frameHeader]
  have hty := takeWhile_append_full isWordChar ty ':'
    (cid ++ '#' :: '#' :: '#' :: '\n' :: rest) htyw (by decide)
  have hidb : ∀ c ∈ cid, (c != '#') = true := fun c hc => by
    simpa using (hid c hc).1
  have hcid := takeWhile_append_full (fun c => c != '#') cid '#'
    ('#' :: '#' :: '\n' :: rest) hidb (by decide)
  unfold parseHeader
  rw [h1, stripLit_self_append, Option.some_bind, hty.1, if_neg htyne, hty.2]
  rw [show ':' :: (cid ++ '#' :: '#' :: '#' :: '\n' :: rest) =
      [':'] ++ (cid ++ '#' :: '#' :: '#' :: '\n' :: rest) from rfl]
  rw [stripLit_self_append, Option.some_bind]
  rw [show cid ++ '#' :: '#' :: '#' :: '\n' :: rest =
      cid ++ '#' :: ('#' :: '#' :: '\n' :: rest) from rfl]
  rw [hcid.1, if_neg hidne, hcid.2]
  rw [show ('#' : Char) :: '#' :: '#' :: '\n' :: rest =
      ['#', '#', '#', '\n'] ++ rest from rfl]
  rw [stripLit_self_append]
  rfl

/-- The anchored regex attempt succeeds at a well-formed frame start. -/
theorem frameAt_complete {ty cid content : List Char} (rest : List Char)
    (htyne : ty ≠ []) (htyw : ∀ c ∈ ty, isWordChar c = true)
    (hidne : cid ≠ []) (hid : ∀ c ∈ cid, c ≠ '#' ∧ c ≠ '\n')
    (hco : ¬ (['#', '#', '#'] <:+: content)) :
    frameAt (frameHeader ty cid ++ content ++ endLit ++ rest) =
      some (ty, cid, content, rest) := by
  unfold frameAt
  rw [show frameHeader ty cid ++ content ++ endLit ++ rest =
      frameHeader ty cid ++ (content ++ endLit ++ rest) from by simp]
  rw [parseHeader_complete _ htyne htyw hidne hid, Option.some_bind]
  rw [splitAtLit_exact rest hco]
  rfl

theorem findFrame_of_frameAt {s : List Char}
    {r : List Char × List Char × List Char × List Char}
    (hne : s ≠ []) (h : frameAt s = some r) : findFrame s = some r := by
  cases s with
  | nil => exact absurd rfl hne
  | cons c cs =>
    unfold findFrame
    rw [h]
    rfl

theorem findFrame_skip {c : Char} {cs : List Char}
    (h : frameAt (c :: cs) = none) : findFrame (c :: cs) = findFrame cs := by
  conv_lhs => unfold findFrame
  rw [h]
  rfl

theorem parseHeader_head_ne {c : Char} {cs : List Char} (hc : c ≠ '#') :
    parseHeader (c :: cs) = none := by
  unfold parseHeader stripLit
  rw [if_neg]
  · rfl
  · intro hp
    obtain ⟨t, ht⟩ := List.isPrefixOf_iff_prefix.mp hp
    simp only [List.cons_append, List.cons.injEq] at ht
    exact hc ht.1.symm

theorem frameAt_head_ne {c : Char} {cs : List Char} (hc : c ≠ '#') :
    frameAt (c :: cs) = none := by
  simp [frameAt, parseHeader_head_ne hc]

/-- `findFrame` finds a well-formed frame placed after an optional leading
newline (the leftover of the previous frame's wire text). -/
theorem findFrame_complete {g ty cid content : List Char} (rest : List Char)
    (hg : g = [] ∨ g = ['\n'])
    (htyne : ty ≠ []) (htyw : ∀ c ∈ ty, isWordChar c = true)
    (hidne : cid ≠ []) (hid : ∀ c ∈ cid, c ≠ '#' ∧ c ≠ '\n')
    (hco : ¬ (['#', '#', '#'] <:+: content)) :
    findFrame (g ++ frameHeader ty cid ++ content ++ endLit ++ rest) =
      some (ty, cid, content, rest) := by
  have hbase : findFrame (frameHeader ty cid ++ content ++ endLit ++ rest) =
      some (ty, cid, content, rest) := by
    apply findFrame_of_frameAt
    · simp [frameHeader]
    · exact frameAt_complete rest htyne htyw hidne hid hco
  rcases hg with rfl | rfl
  · simpa using hbase
  · rw [show ['\n'] ++ frameHeader ty cid ++ content ++ endLit ++ rest =
        '\n' :: (frameHeader ty cid ++ content ++ endLit ++ rest) from by simp]
    rw [findFrame_skip (frameAt_head_ne (by decide))]
    exact hbase

theorem findFrame_none_of_no_occ :
    ∀ {s : List Char}, (∀ u v, s ≠ u ++ endLit ++ v) → findFrame s = none := by
  intro s
  induction s with
  | nil => intro _; rfl
  | cons c cs ih =>
    intro hocc
    have hfa : frameAt (c :: cs) = none := by
      cases hfa : frameAt (c :: cs) with
      | none => rfl
      | some r =>
        obtain ⟨ty, cid, content, rest⟩ := r
        obtain ⟨after, hph, hsp⟩ := frameAt_iff.mp hfa
        have hshape := (parseHeader_shape hph).1
        have hsp' := splitAtLit_shape endLit after content rest hsp
        exfalso
        apply hocc
          ('#' :: '#' :: '#' :: (ty ++ ':' :: (cid ++ '#' :: '#' :: '#' :: '\n' :: content)))
          rest
        rw [hshape, hsp']
        simp
    rw [findFrame_skip hfa]
    exact ih fun u v h => hocc (c :: u) v (by simp [h])

/-- No record is emitted from a proper prefix of a well-formed frame's wire
text (optionally preceded by the leftover newline): the Block Parser retains
a partial frame instead of mis-parsing it. -/
theorem findFrame_none_of_proper {g ty cid content : List Char}
    (hg : g = [] ∨ g = ['\n'])
    (htyw : ∀ c ∈ ty, isWordChar c = true)
    (hid : ∀ c ∈ cid, c ≠ '#' ∧ c ≠ '\n')
    (hco : ¬ (['#', '#', '#'] <:+: content))
    (s w : List Char) (hw : s ++ w = g ++ frameHeader ty cid ++ content ++ endLit)
    (hlen : s.length < (g ++ frameHeader ty cid ++ content ++ endLit).length) :
    findFrame s = none := by
  apply findFrame_none_of_no_occ
  intro u v heq
  have hfull : g ++ frameHeader ty cid ++ content ++ endLit = u ++ endLit ++ (v ++ w) := by
    rw [← hw, heq]; simp
  obtain ⟨hu, hvw⟩ := stream_occurrence hg htyw hid hco hfull
  obtain ⟨hv, hw0⟩ := List.append_eq_nil.mp hvw
  subst hw0
  rw [List.append_nil] at hw
  rw [← hw] at hlen
  exact lt_irrefl _ hlen

theorem parseBlocks_of_none {s : List Char} (h : findFrame s = none) :
    parseBlocks s = ([], s) := by
  unfold parseBlocks
  split
  · rfl
  · next heq =>
    rw [h] at heq
    exact Option.noConfusion heq

theorem parseBlocks_of_some {s ty cid content rest : List Char}
    (h : findFrame s = some (ty, cid, content, rest)) :
    parseBlocks s =
      (mkCellOutput ty cid content :: (parseBlocks rest).1, (parseBlocks rest).2) := by
  conv_lhs => unfold parseBlocks
  split
  · next heq =>
    rw [h] at heq
    exact Option.noConfusion heq
  · next ty' cid' content' rest' heq =>
    rw [h] at heq
    simp only [Option.some.injEq, Prod.mk.injEq] at heq
    obtain ⟨e1, e2, e3, e4⟩ := heq
    subst e1; subst e2; subst e3; subst e4
    rfl

/-- After any parse the retained text holds no complete match. -/
theorem parseBlocks_residual : ∀ s : List Char, findFrame (parseBlocks s).2 = none := by
  have main : ∀ n s, s.length ≤ n → findFrame (parseBlocks s).2 = none := by
    intro n
    induction n with
    | zero =>
      intro s hs
      have : s = [] := List.length_eq_zero.mp (Nat.le_zero.mp hs)
      subst this
      rw [parseBlocks_of_none (show findFrame [] = none from rfl)]
      rfl
    | succ n ih =>
      intro s hs
      cases hff : findFrame s with
      | none => rw [parseBlocks_of_none hff]; exact hff
      | some r =>
        obtain ⟨ty, cid, content, rest⟩ := r
        rw [parseBlocks_of_some hff]
        have := findFrame_rest_length s ty cid content rest hff
        exact ih rest (by omega)
  exact fun s => main s.length s le_rfl

theorem encStream_cons (f : Frame) (fs : List Frame) :
    encStream (f :: fs) = encCore f ++ '\n' :: encStream fs := by
  simp [encStream, encFrame]

/-- Main step lemma: parsing any prefix `s` of a well-formed stream
(optionally led by the leftover newline `g`) emits the records of exactly
the frames whose terminator lies inside `s`, and retains a pending text
that, with the rest of the stream appended, is again a well-formed stream
remainder. -/
theorem parseBlocks_step :
    ∀ (fs : List Frame) (g s t : List Char),
      (∀ f ∈ fs, WFFrame f) → (g = [] ∨ g = ['\n']) →
      s ++ t = g ++ encStream fs →
      ∃ k g', (g' = [] ∨ g' = ['\n']) ∧
        (parseBlocks s).1 = (fs.take k).map frameRec ∧
        (parseBlocks s).2 ++ t = g' ++ encStream (fs.drop k) := by
  intro fs
  induction fs with
  | nil =>
    intro g s t _ hg heq
    have henc : encStream ([] : List Frame) = [] := by simp [encStream]
    rw [henc, List.append_nil] at heq
    have hslen : s.length ≤ 1 := by
      have := congrArg List.length heq
      simp only [List.length_append] at this
      rcases hg with rfl | rfl
      · simp only [List.length_nil] at this; omega
      · simp only [List.length_cons, List.length_nil] at this; omega
    have hnone : findFrame s = none := by
      apply findFrame_none_of_no_occ
      intro u v hocc
      have := congrArg List.length hocc
      simp [endLit] at this
      omega
    rw [parseBlocks_of_none hnone]
    exact ⟨0, g, hg, by simp, by simp [henc, heq]⟩
  | cons f fs' ih =>
    intro g s t hwf hg heq
    have hwff := hwf f (by simp)
    obtain ⟨htyne, htyw, hidne, hid, hco⟩ := hwff
    have heq' : s ++ t = (g ++ encCore f) ++ ('\n' :: encStream fs') := by
      rw [heq, encStream_cons]
      simp
    by_cases hlen : (g ++ encCore f).length ≤ s.length
    · obtain ⟨s', hs, hst⟩ := append_split_of_length_le heq' hlen
      have hff : findFrame s = some (f.ftype, f.fid, f.fcontent, s') := by
        rw [hs]
        rw [show (g ++ encCore f) ++ s' =
            g ++ frameHeader f.ftype f.fid ++ f.fcontent ++ endLit ++ s' from by
          simp [encCore]]
        exact findFrame_complete s' hg htyne htyw hidne hid hco
      obtain ⟨k, g', hg', hrec, hpend⟩ :=
        ih ['\n'] s' t (fun x hx => hwf x (by simp [hx])) (Or.inr rfl) (by simpa using hst)
      refine ⟨k + 1, g', hg', ?_, ?_⟩
      · rw [parseBlocks_of_some hff]
        simp [frameRec, hrec]
      · rw [parseBlocks_of_some hff]
        simpa using hpend
    · push_neg at hlen
      obtain ⟨w, hA, hwB⟩ := append_split_of_length_le heq'.symm (Nat.le_of_lt hlen)
      have hnone : findFrame s = none := by
        apply findFrame_none_of_proper hg htyw hid hco s w
        · rw [show g ++ frameHeader f.ftype f.fid ++ f.fcontent ++ endLit =
              g ++ encCore f from by simp [encCore]]
          exact hA.symm
        · rw [show g ++ frameHeader f.ftype f.fid ++ f.fcontent ++ endLit =
              g ++ encCore f from by simp [encCore]]
          exact hlen
      rw [parseBlocks_of_none hnone]
      exact ⟨0, g, hg, by simp, by simpa using heq⟩

/-- Parsing a whole well-formed stream in a single read yields exactly the
stream's records. -/
theorem parseBlocks_single_read (fs : List Frame) (hwf : ∀ f ∈ fs, WFFrame f) :
    (parseBlocks (encStream fs)).1 = fs.map frameRec := by
  obtain ⟨k, g', hg', hrec, hpend⟩ :=
    parseBlocks_step fs [] (encStream fs) [] hwf (Or.inl rfl) (by simp)
  have hres := parseBlocks_residual (encStream fs)
  rw [List.append_nil] at hpend
  have hdrop : fs.drop k = [] := by
    cases hdrop : fs.drop k with
    | nil => rfl
    | cons f2 fs2 =>
      exfalso
      have hwff := hwf f2 (by
        have : f2 ∈ fs.drop k := by rw [hdrop]; simp
        exact List.mem_of_mem_drop this)
      obtain ⟨htyne, htyw, hidne, hid, hco⟩ := hwff
      rw [hdrop] at hpend
      rw [hpend] at hres
      rw [encStream_cons] at hres
      rw [show g' ++ (encCore f2 ++ '\n' :: encStream fs2) =
          g' ++ frameHeader f2.ftype f2.fid ++ f2.fcontent ++ endLit ++
            ('\n' :: encStream fs2) from by simp [encCore]] at hres
      rw [findFrame_complete _ hg' htyne htyw hidne hid hco] at hres
      exact Option.noConfusion hres
  have hk : fs.length ≤ k := List.drop_eq_nil_iff.mp hdrop
  rw [hrec, List.take_of_length_le hk]

theorem jsTrim_nil_all_ws {s : List Char} (h : jsTrim s = []) :
    ∀ c ∈ s, wsChar c = true := by
  have h1 : (s.dropWhile wsChar).reverse.dropWhile wsChar = [] := by
    have := congrArg List.reverse h
    simpa [jsTrim] using this
  have h2 : ∀ c ∈ (s.dropWhile wsChar).reverse, wsChar c = true :=
    List.dropWhile_eq_nil_iff.mp h1
  have h3 : ∀ c ∈ s.dropWhile wsChar, wsChar c = true := fun c hc =>
    h2 c (List.mem_reverse.mpr hc)
  intro c hc
  rw [← List.takeWhile_append_dropWhile (p := wsChar) (l := s)] at hc
  rcases List.mem_append.mp hc with hc | hc
  · exact List.mem_takeWhile_imp hc
  · exact h3 c hc

theorem findFrame_of_all_ws {s : List Char} (h : jsTrim s = []) :
    findFrame s = none := by
  apply findFrame_none_of_no_occ
  intro u v heq
  have : ('#' : Char) ∈ s := by
    rw [heq]
    simp [endLit]
  have := jsTrim_nil_all_ws h '#' this
  simp [wsChar] at this

/-- Fold invariant for the poll loop: if the retained pending text holds no
complete match and, together with the increments still to come, forms the
remainder of a well-formed stream, then the loop emits exactly the remaining
frames' records. -/
theorem runChunks_go :
    ∀ (chunks : List (List Char)) (fsr : List Frame) (g : List Char)
      (acc : List CellOutputRec) (p : List Char),
      (∀ f ∈ fsr, WFFrame f) → (g = [] ∨ g = ['\n']) →
      findFrame p = none →
      p ++ chunks.flatten = g ++ encStream fsr →
      (chunks.foldl watchStep (acc, p)).1 = acc ++ fsr.map frameRec := by
  intro chunks
  induction chunks with
  | nil =>
    intro fsr g acc p hwf hg hpnone heq
    simp only [List.flatten_nil, List.append_nil] at heq
    cases fsr with
    | nil => simp
    | cons f2 fs2 =>
      exfalso
      obtain ⟨htyne, htyw, hidne, hid, hco⟩ := hwf f2 (by simp)
      rw [heq, encStream_cons] at hpnone
      rw [show g ++ (encCore f2 ++ '\n' :: encStream fs2) =
          g ++ frameHeader f2.ftype f2.fid ++ f2.fcontent ++ endLit ++
            ('\n' :: encStream fs2) from by simp [encCore]] at hpnone
      rw [findFrame_complete _ hg htyne htyw hidne hid hco] at hpnone
      exact Option.noConfusion hpnone
  | cons chunk chunks' ih =>
    intro fsr g acc p hwf hg hpnone heq
    rw [List.foldl_cons]
    by_cases hck : chunk = []
    · subst hck
      have : watchStep (acc, p) [] = (acc, p) := by
        simp [watchStep, processChunk]
      rw [this]
      apply ih fsr g acc p hwf hg hpnone
      simpa using heq
    · by_cases hws : jsTrim (p ++ chunk) = []
      · have hstep : watchStep (acc, p) chunk = (acc, p ++ chunk) := by
          simp [watchStep, processChunk, hck, hws]
        rw [hstep]
        apply ih fsr g acc (p ++ chunk) hwf hg (findFrame_of_all_ws hws)
        rw [List.append_assoc]
        simpa [List.flatten_cons, List.append_assoc] using heq
      · have hstep : watchStep (acc, p) chunk =
            (acc ++ (parseBlocks (p ++ chunk)).1, (parseBlocks (p ++ chunk)).2) := by
          simp [watchStep, processChunk, hck, hws]
        rw [hstep]
        obtain ⟨k, g', hg', hrec, hpend⟩ :=
          parseBlocks_step fsr g (p ++ chunk) chunks'.flatten hwf hg
            (by simpa [List.flatten_cons, List.append_assoc] using heq)
        rw [hrec]
        rw [ih (fsr.drop k) g' (acc ++ (fsr.take k).map frameRec)
          (parseBlocks (p ++ chunk)).2
          (fun f hf => hwf f (List.mem_of_mem_drop hf)) hg'
          (parseBlocks_residual (p ++ chunk)) hpend]
        rw [List.append_assoc, ← List.map_append, List.take_append_drop]

/-- C1: For every well-formed side-log record stream (a concatenation of
frames `###TYPE:ID###\n<content>\n###END###\n` whose contents contain no
marker substrings) and for every way of splitting that stream into
successive increments fed to `OutputWatcher.processNewOutput`, the sequence
of records emitted equals the sequence obtained by parsing the whole stream
in a single read, and that sequence is exactly one record per frame — so
multiple complete frames inside one increment are all emitted, multi-line
contents are emitted as one record each, and a trailing partial frame is
retained until its `###END###` arrives. -/
theorem c1_chunk_invariance (fs : List Frame) (chunks : List (List Char))
    (hwf : ∀ f ∈ fs, WFFrame f) (hsplit : chunks.flatten = encStream fs) :
    (runChunks chunks).1 = (parseBlocks (encStream fs)).1 ∧
      (parseBlocks (encStream fs)).1 = fs.map frameRec := by
  have hsingle := parseBlocks_single_read fs hwf
  constructor
  · rw [hsingle]
    unfold runChunks
    have := runChunks_go chunks fs [] [] [] hwf (Or.inl rfl) rfl
      (by simpa using hsplit)
    simpa using this
  · exact hsingle

/-- Witness for C1: a two-frame stream (one record with multi-line content,
then a `CELL_END` frame) cut in the middle of the first frame's content, the
second increment carrying the rest of frame one plus all of frame two. -/
theorem c1_chunk_invariance_witness :
    (runChunks ["###OUTPUT:c1###\nline one\nline two".toList,
        "\n###END###\n###CELL_END:c1###\n\n###END###\n".toList]).1 =
      (parseBlocks (encStream
        [⟨"OUTPUT".toList, "c1".toList, "line one\nline two".toList⟩,
         ⟨"CELL_END".toList, "c1".toList, []⟩])).1 ∧
      (parseBlocks (encStream
        [⟨"OUTPUT".toList, "c1".toList, "line one\nline two".toList⟩,
         ⟨"CELL_END".toList, "c1".toList, []⟩])).1 =
        [⟨"OUTPUT".toList, "c1".toList, "line one\nline two".toList⟩,
         ⟨"CELL_END".toList, "c1".toList, []⟩].map frameRec :=
  c1_chunk_invariance
    [⟨"OUTPUT".toList, "c1".toList, "line one\nline two".toList⟩,
     ⟨"CELL_END".toList, "c1".toList, []⟩]
    ["###OUTPUT:c1###\nline one\nline two".toList,
     "\n###END###\n###CELL_END:c1###\n\n###END###\n".toList]
    (by decide) (by decide)

/-! ## Side-log channel: YAML options and the presentation filter
(`OutputWatcher.filterOutputs`, `waitForCell`) -/

/-- The `YamlOptions` interface. -/
structure YamlOptions where
  echo : Bool
  message : Bool
  warning : Bool
  error : Bool
deriving DecidableEq, Repr

/-- `OutputWatcher.defaultYamlOptions`. -/
def defaultYamlOptions : YamlOptions :=
  { echo := true, message := true, warning := true, error := true }

/-- A caller-supplied `Partial<YamlOptions>`. -/
structure PartialYamlOptions where
  echo : Option Bool
  message : Option Bool
  warning : Option Bool
  error : Option Bool
deriving DecidableEq, Repr

/-- The spread `{ ...this.defaultYamlOptions, ...yamlOptions }` at the top of
`waitForCell`. -/
def mergeOptions (partialOpts : PartialYamlOptions) : YamlOptions :=
  { echo := partialOpts.echo.getD defaultYamlOptions.echo,
    message := partialOpts.message.getD defaultYamlOptions.message,
    warning := partialOpts.warning.getD defaultYamlOptions.warning,
    error := partialOpts.error.getD defaultYamlOptions.error }

/-- `OutputWatcher.filterOutputs`: the presentation filter applied to every
list delivered to a caller. -/
def filterOutputs (outputs : List CellOutputRec) (options : YamlOptions) :
    List CellOutputRec :=
  outputs.filter fun output =>
    if output.rtype = "MESSAGE".toList then options.message
    else if output.rtype = "WARNING".toList then options.warning
    else if output.rtype = "ERROR".toList then options.error
    else if output.rtype = "CELL_START".toList ∨ output.rtype = "CELL_END".toList then
      false
    else true

/-- The classified event kinds of the spec's data model. -/
inductive EventKind
  | text
  | message
  | warning
  | error
  | image
  | markup
  | structural
  | other
deriving DecidableEq, Repr

/-- The record-type to event-kind mapping of the spec's Output Classifier
(OUTPUT is Text, PLOT is Image, HTML is Markup, CELL_START and CELL_END are
structural). -/
def recKind (o : CellOutputRec) : EventKind :=
  if o.rtype = "OUTPUT".toList then EventKind.text
  else if o.rtype = "MESSAGE".toList then EventKind.message
  else if o.rtype = "WARNING".toList then EventKind.warning
  else if o.rtype = "ERROR".toList then EventKind.error
  else if o.rtype = "PLOT".toList then EventKind.image
  else if o.rtype = "HTML".toList then EventKind.markup
  else if o.rtype = "CELL_START".toList ∨ o.rtype = "CELL_END".toList then
    EventKind.structural
  else EventKind.other

/-- Modelled from the spec: "given a policy of booleans (show messages?
warnings? errors?), events whose kind is excluded are dropped before the
final list is returned; Text and Image/Markup events are never filtered by
this policy", with CELL markers structural-only. -/
def specKeep (options : YamlOptions) (o : CellOutputRec) : Bool :=
  match recKind o with
  | EventKind.message => options.message
  | EventKind.warning => options.warning
  | EventKind.error => options.error
  | EventKind.structural => false
  | _ => true

/-! ## Side-log channel: correlation bookkeeping
(`cellOutputs` / `cellCallbacks` maps, `waitForCell`, the CELL_END path of
`processNewOutput`, and the controller's timeout path) -/

/-- The watcher's mutable state: retained pending text, the per-cell output
accumulation map, and the registered completion callbacks (a resolver is
identified by a tag). -/
structure WatcherState where
  pendingContent : List Char
  cellOutputs : List (List Char × List CellOutputRec)
  cellCallbacks : List (List Char × Nat)
deriving DecidableEq, Repr

def lookupCell (m : List (List Char × List CellOutputRec)) (cid : List Char) :
    Option (List CellOutputRec) :=
  (m.find? fun e => e.1 == cid).map fun e => e.2

def lookupCallback (cbs : List (List Char × Nat)) (cid : List Char) : Option Nat :=
  (cbs.find? fun e => e.1 == cid).map fun e => e.2

def eraseCallback (cbs : List (List Char × Nat)) (cid : List Char) :
    List (List Char × Nat) :=
  cbs.filter fun e => e.1 != cid

/-- `if (!cellOutputs.has(id)) set(id, []); get(id)!.push(output)`. -/
def storeOutput (m : List (List Char × List CellOutputRec)) (o : CellOutputRec) :
    List (List Char × List CellOutputRec) :=
  if (m.find? fun e => e.1 == o.cellId).isSome then
    m.map fun e => if e.1 == o.cellId then (e.1, e.2 ++ [o]) else e
  else m ++ [(o.cellId, [o])]

/-- One delivery to a registered resolver: `(cellId, resolver, outputs)`. -/
abbrev Delivery := List Char × Nat × List CellOutputRec

/-- Handling of one parsed record inside `processNewOutput`: store it and, on
`CELL_END`, invoke and then delete the registered callback. -/
def processRecord (st : WatcherState) (o : CellOutputRec) :
    WatcherState × List Delivery :=
  let outs' := storeOutput st.cellOutputs o
  if o.rtype = "CELL_END".toList then
    match lookupCallback st.cellCallbacks o.cellId with
    | some r =>
      ({ st with cellOutputs := outs',
                 cellCallbacks := eraseCallback st.cellCallbacks o.cellId },
        [(o.cellId, r, (lookupCell outs' o.cellId).getD [])])
    | none => ({ st with cellOutputs := outs' }, [])
  else ({ st with cellOutputs := outs' }, [])

def processRecords (st : WatcherState) : List CellOutputRec → WatcherState × List Delivery
  | [] => (st, [])
  | o :: os =>
    let r1 := processRecord st o
    let r2 := processRecords r1.1 os
    (r2.1, r1.2 ++ r2.2)

/-- One full `processNewOutput` poll: incremental parse, then record
handling. -/
def watcherPoll (st : WatcherState) (chunk : List Char) :
    WatcherState × List Delivery :=
  let pr := processChunk st.pendingContent chunk
  processRecords { st with pendingContent := pr.2 } pr.1

/-- `OutputWatcher.waitForCell`: resolve immediately (filtered) when a
CELL_END is already stored for the cell, otherwise register the resolver. -/
def waitForCell (st : WatcherState) (cid : List Char) (resolver : Nat)
    (yamlOptions : PartialYamlOptions) : WatcherState × Option (List CellOutputRec) :=
  let options := mergeOptions yamlOptions
  match lookupCell st.cellOutputs cid with
  | some existing =>
    if existing.any (fun o => o.rtype == "CELL_END".toList) then
      (st, some (filterOutputs existing options))
    else
      ({ st with cellCallbacks := st.cellCallbacks ++ [(cid, resolver)] }, none)
  | none =>
    ({ st with cellCallbacks := st.cellCallbacks ++ [(cid, resolver)] }, none)

/-- The delivery wrapped by `waitForCell`'s callback: the raw accumulated
records pass through `filterOutputs` before reaching the caller. -/
def deliverToCaller (outputs : List CellOutputRec) (yamlOptions : PartialYamlOptions) :
    List CellOutputRec :=
  filterOutputs outputs (mergeOptions yamlOptions)

/-- The `catch` branch of `executeSingleCell` when the 60-second
`timeoutPromise` of the `Promise.race` rejects: the watcher state is not
touched — in particular no callback is deregistered and no map entry
removed. -/
def timeoutStep (st : WatcherState) : WatcherState := st

/-- The value `executeSingleCell` obtains from
`Promise.race([waitForCell ..., timeoutPromise])`: the filtered records when
the cell completed within the deadline, otherwise the bare rejection — the
accumulated records are discarded. -/
def executeSingleCellResult (cellDone : Bool) (accumulated : List CellOutputRec)
    (yamlOptions : PartialYamlOptions) : Except (List Char) (List CellOutputRec) :=
  if cellDone then Except.ok (deliverToCaller accumulated yamlOptions)
  else Except.error "Execution timeout".toList

/-! ## Side-log channel: `cellOutputsToNotebookOutput` (the Classifier's
rendering, including the PLOT file read) -/

/-- A notebook output item payload: text or binary. -/
inductive ItemData
  | textItem (s : List Char)
  | binItem (b : List Nat)
deriving DecidableEq, Repr

/-- One `NotebookCellOutputItem`: payload plus mime type. -/
structure NbItem where
  data : ItemData
  mime : List Char
deriving DecidableEq, Repr

def fsLookup (fsys : List (List Char × List Nat)) (path : List Char) :
    Option (List Nat) :=
  (fsys.find? fun e => e.1 == path).map fun e => e.2

def fsErase (fsys : List (List Char × List Nat)) (path : List Char) :
    List (List Char × List Nat) :=
  fsys.filter fun e => e.1 != path

/-- One arm of the `switch` in `cellOutputsToNotebookOutput`.  The PLOT arm
reads the referenced file (a failed read is caught and yields nothing); no
arm deletes anything from the file system, and CELL markers have no case. -/
def cellOutputToItems (fsys : List (List Char × List Nat)) (o : CellOutputRec) :
    List NbItem :=
  if o.rtype = "OUTPUT".toList ∨ o.rtype = "MESSAGE".toList ∨
      o.rtype = "WARNING".toList ∨ o.rtype = "ERROR".toList then
    [⟨ItemData.textItem o.content,
      if o.rtype = "ERROR".toList then
        "application/vnd.code.notebook.stderr".toList
      else "text/plain".toList⟩]
  else if o.rtype = "PLOT".toList then
    match fsLookup fsys o.content with
    | some bytes => [⟨ItemData.binItem bytes, "image/png".toList⟩]
    | none => []
  else if o.rtype = "HTML".toList then
    [⟨ItemData.textItem o.content, "text/html".toList⟩]
  else []

/-- `cellOutputsToNotebookOutput`: map every record to its items; the file
system is returned as well to make explicit that it is left untouched. -/
def cellOutputsToNotebookOutput (fsys : List (List Char × List Nat))
    (outputs : List CellOutputRec) :
    List NbItem × List (List Char × List Nat) :=
  ((outputs.map (cellOutputToItems fsys)).flatten, fsys)

/-- JavaScript `String.prototype.includes`: substring containment. -/
def containsSub (pat : List Char) : List Char → Bool
  | [] => pat.isPrefixOf []
  | c :: cs => pat.isPrefixOf (c :: cs) || containsSub pat cs

/-- The base64 alphabet used by Node's `Buffer.prototype.toString('base64')`. -/
def base64Table : List Char :=
  "ABCDEFGHIJKLMNOPQRSTUVWXYZabcdefghijklmnopqrstuvwxyz0123456789+/".toList

def b64Char (n : Nat) : Char := base64Table.getD n 'A'

/-- Standard base64 of a byte sequence (Node
`Buffer.prototype.toString('base64')`). -/
def base64Encode : List Nat → List Char
  | [] => []
  | [a] => [b64Char (a / 4), b64Char (a % 4 * 16), '=', '=']
  | [a, b] => [b64Char (a / 4), b64Char (a % 4 * 16 + b / 16), b64Char (b % 16 * 4), '=']
  | a :: b :: c :: rest =>
    b64Char (a / 4) :: b64Char (a % 4 * 16 + b / 16) ::
      b64Char (b % 16 * 4 + c / 64) :: b64Char (c % 64) :: base64Encode rest

/-! ## Direct-scrape channel: `RPseudoterminalSimple`

`executeCode` / `checkForCommandEnd` / `finishExecution` /
`parseOutputBuffer` / `handleInput` / `setupREnvironment`. -/

/-- Output classification of the scrape channel (`OutputData.type`). -/
inductive OutKind
  | text
  | html
  | image
  | error
deriving DecidableEq, Repr

/-- The scrape channel's `OutputData`. -/
structure OutputData where
  otype : OutKind
  content : List Char
  mimeType : Option (List Char)
deriving DecidableEq, Repr

/-- The mutable fields of `RPseudoterminalSimple` that the protocol uses. -/
structure ScrapeState where
  rProcessAlive : Bool
  isExecuting : Bool
  outputBuffer : List Char
  currentOutputs : List OutputData
  pendingResolve : Option Nat
  currentEndMarker : List Char
  isReady : Bool
  stdinWrites : List (List Char)
deriving DecidableEq, Repr

def commandMarker : List Char := ".quarto_exec_id_".toList

def endMarkerSuffix : List Char := "_complete".toList

def htmlStartMarker : List Char := "###QUARTO_HTML_START###".toList

def htmlEndMarker : List Char := "###QUARTO_HTML_END###".toList

/-- JavaScript `Number.prototype.toString()` for a nonnegative integer:
decimal digits. -/
def jsNatToString (n : Nat) : List Char :=
  if h : n < 10 then [Nat.digitChar n]
  else jsNatToString (n / 10) ++ [Nat.digitChar (n % 10)]
termination_by n
decreasing_by exact Nat.div_lt_self (by omega) (by omega)

/-- `const execId = Date.now().toString()` in `executeCode`: the correlation
id is the millisecond timestamp, nothing else. -/
def mkExecId (now : Nat) : List Char := jsNatToString now

def startMarkerOf (now : Nat) : List Char := commandMarker ++ mkExecId now

def endMarkerOf (now : Nat) : List Char := startMarkerOf now ++ endMarkerSuffix

/-- The side-log controller's
``cellId = `cell_${Date.now()}_${Math.random().toString(36).substr(2, 9)}` ``. -/
def mkCellId (now : Nat) (rand : List Char) : List Char :=
  "cell_".toList ++ jsNatToString now ++ '_' :: rand

/-- The heuristic HTML-capture dispatch of `executeCode`. -/
def needsHtmlWrapper (code : List Char) : Bool :=
  containsSub "gt()".toList code || containsSub "htmlwidgets".toList code ||
    containsSub "plotly".toList code || containsSub "DT::datatable".toList code

/-- The heuristic plot-capture dispatch of `executeCode`. -/
def needsPlotWrapper (code : List Char) : Bool :=
  containsSub "plot(".toList code || containsSub "ggplot(".toList code ||
    containsSub "hist(".toList code || containsSub "boxplot(".toList code ||
    containsSub "barplot(".toList code || containsSub "scatter".toList code

/-- The synchronous body of the promise executor in `executeCode`, run as
soon as `executeCode` is past the one-time `readyPromise`: it resets the
buffers, installs the new resolver (overwriting any previous one), raises
`isExecuting`, and writes the instrumented request to the process stdin.
There is no check of, or wait on, a previous execution. -/
def executeCodeStart (st : ScrapeState) (code : List Char) (reqId : Nat) (now : Nat) :
    ScrapeState :=
  let st1 := { st with currentOutputs := [], outputBuffer := [],
                       pendingResolve := some reqId, isExecuting := true }
  if st.rProcessAlive then
    let startM := startMarkerOf now
    let endM := endMarkerOf now
    let codeText :=
      if needsPlotWrapper code then
        ".quarto_capture_plots(expression(\x7b\n".toList ++ code ++ "\n\x7d))\n".toList
      else if needsHtmlWrapper code then
        ".quarto_capture_html(expression(\x7b\n".toList ++ code ++ "\n\x7d))\n".toList
      else code ++ ['\n']
    { st1 with
        stdinWrites := st1.stdinWrites ++
          [startM ++ " <- TRUE\n".toList, codeText, endM ++ " <- TRUE\n".toList],
        currentEndMarker := endM }
  else st1

/-! ### `parseOutputBuffer` -/

/-- The tail `\s*<-\s*TRUE` shared by the marker regexes. -/
def matchAssignTail (s : List Char) : Option (List Char) :=
  (stripLit "<-".toList (s.dropWhile wsChar)).bind fun v =>
    stripLit "TRUE".toList (v.dropWhile wsChar)

/-- `\.quarto_exec_id_\d+(_complete)?\s*<-\s*TRUE` anchored at the head of
`s` (the optional group is tried greedily first, as the regex engine does). -/
def matchExecIdTrue (s : List Char) : Option (List Char) :=
  (stripLit ".quarto_exec_id_".toList s).bind fun s1 =>
    if s1.takeWhile Char.isDigit = [] then none
    else
      match stripLit "_complete".toList (s1.dropWhile Char.isDigit) with
      | some s3 =>
        match matchAssignTail s3 with
        | some r => some r
        | none => matchAssignTail (s1.dropWhile Char.isDigit)
      | none => matchAssignTail (s1.dropWhile Char.isDigit)

/-- Regex 1 of `parseOutputBuffer`:
`/>\s*\.quarto_exec_id_\d+(_complete)?\s*<-\s*TRUE\s*\n?/` anchored at the
head (`\s*\n?` amounts to the whole trailing whitespace run). -/
def matchMarkerAssign (s : List Char) : Option (List Char) :=
  match s with
  | '>' :: s0 => (matchExecIdTrue (s0.dropWhile wsChar)).map fun r => r.dropWhile wsChar
  | _ => none

/-- The unanchored `line.match(/\.quarto_exec_id_\d+(_complete)?\s*<-\s*TRUE/)`
used by the line filter. -/
def searchExecIdTrue : List Char → Bool
  | [] => false
  | c :: cs => (matchExecIdTrue (c :: cs)).isSome || searchExecIdTrue cs

/-- Regex 2: `/>\s*\.quarto_capture_(plots|html)\(expression\(\{\s*\n?/`
anchored at the head. -/
def matchCaptureOpen (s : List Char) : Option (List Char) :=
  match s with
  | '>' :: s0 =>
    (stripLit ".quarto_capture_".toList (s0.dropWhile wsChar)).bind fun s1 =>
      ((match stripLit "plots".toList s1 with
        | some s2 => some s2
        | none => stripLit "html".toList s1 : Option (List Char))).bind fun s2 =>
        (stripLit "(expression(\x7b".toList s2).map fun s3 => s3.dropWhile wsChar
  | _ => none

/-- Regex 3: `/>\s*\+\s*\}\)\)\s*\n?/` anchored at the head. -/
def matchCaptureClose (s : List Char) : Option (List Char) :=
  match s with
  | '>' :: s0 =>
    match s0.dropWhile wsChar with
    | '+' :: s1 =>
      (stripLit "\x7d))".toList (s1.dropWhile wsChar)).map fun s2 => s2.dropWhile wsChar
    | _ => none
  | _ => none

/-- `String.prototype.replace` with a `/g` regex given by an anchored
matcher: scan left to right, deleting each non-overlapping match.  All the
matchers used consume at least one character, so fuel `s.length + 1`
suffices. -/
def replaceAllM (m : List Char → Option (List Char)) : Nat → List Char → List Char
  | 0, s => s
  | _ + 1, [] => []
  | fuel + 1, c :: cs =>
    match m (c :: cs) with
    | some rest => replaceAllM m fuel rest
    | none => c :: replaceAllM m fuel cs

/-- `/^>\s*$/`: a bare-prompt line. -/
def isPromptOnly (l : List Char) : Bool :=
  match l with
  | '>' :: rest => (rest.dropWhile wsChar).isEmpty
  | _ => false

/-- The keep-condition of the line loop in `parseOutputBuffer` (skip marker
lines, prompt-echo lines, and blank lines). -/
def keepOutputLine (l : List Char) : Bool :=
  !searchExecIdTrue l &&
    !("> ".toList.isPrefixOf l) && !("+ ".toList.isPrefixOf l) && !isPromptOnly l &&
    !(jsTrim l).isEmpty

/-- Stages 1-3 of `parseOutputBuffer`: the three marker `replace`s, the line
filter, and the final `trim`. -/
def cleanBuffer (buffer : List Char) : List Char :=
  let b1 := replaceAllM matchMarkerAssign (buffer.length + 1) buffer
  let b2 := replaceAllM matchCaptureOpen (b1.length + 1) b1
  let b3 := replaceAllM matchCaptureClose (b2.length + 1) b2
  jsTrim (List.intercalate ['\n'] ((b3.splitOn '\n').filter keepOutputLine))

/-- `/###QUARTO_PLOT###([^#]+)###END_PLOT###/` anchored at the head of `s`:
returns the whole match text and the path group. -/
def plotMatchAt (s : List Char) : Option (List Char × List Char) :=
  (stripLit "###QUARTO_PLOT###".toList s).bind fun s1 =>
    if s1.takeWhile (fun c => c != '#') = [] then none
    else
      (stripLit "###END_PLOT###".toList (s1.dropWhile (fun c => c != '#'))).map fun _ =>
        ("###QUARTO_PLOT###".toList ++ s1.takeWhile (fun c => c != '#') ++
            "###END_PLOT###".toList,
          s1.takeWhile (fun c => c != '#'))

/-- `regex.exec` from a given index: find the first anchored match at or
after position `idx` in the remaining text. -/
def findMatchFrom (m : List Char → Option (List Char × List Char)) :
    List Char → Nat → Option (Nat × List Char × List Char)
  | [], _ => none
  | c :: cs, idx =>
    match m (c :: cs) with
    | some (full, grp) => some (idx, full, grp)
    | none => findMatchFrom m cs (idx + 1)

/-- `String.prototype.replace(matchText, '')`: delete the first occurrence. -/
def removeFirstOcc (pat : List Char) : List Char → List Char
  | [] => []
  | c :: cs =>
    if pat.isPrefixOf (c :: cs) then (c :: cs).drop pat.length
    else c :: removeFirstOcc pat cs

/-- The `while ((plotMatch = plotRegex.exec(buffer)))` loop: the regex object
keeps its `lastIndex` across iterations while `buffer` is shortened by
`replace`, exactly as in the source.  An existing file is read, base64
encoded, pushed as an image event and unlinked; the match text is removed
from the buffer in every case. -/
def plotLoop : Nat → List (List Char × List Nat) → List Char → Nat → List OutputData →
    List (List Char × List Nat) × List Char × List OutputData
  | 0, fsys, buffer, _, acc => (fsys, buffer, acc)
  | fuel + 1, fsys, buffer, lastIndex, acc =>
    match findMatchFrom plotMatchAt (buffer.drop lastIndex) lastIndex with
    | none => (fsys, buffer, acc)
    | some (idx, full, rawPath) =>
      let plotPath := jsTrim rawPath
      let next : List (List Char × List Nat) × List OutputData :=
        match fsLookup fsys plotPath with
        | some bytes =>
          (fsErase fsys plotPath,
            acc ++ [⟨OutKind.image, base64Encode bytes, some "image/png".toList⟩])
        | none => (fsys, acc)
      plotLoop fuel next.1 (removeFirstOcc full buffer) (idx + full.length) next.2

/-- `/###QUARTO_HTML_START###([\s\S]*?)###QUARTO_HTML_END###/` anchored at
the head of `s`. -/
def htmlMatchAt (s : List Char) : Option (List Char × List Char) :=
  (stripLit htmlStartMarker s).bind fun s1 =>
    (splitAtLit htmlEndMarker s1).map fun pr =>
      (htmlStartMarker ++ pr.1 ++ htmlEndMarker, pr.1)

/-- The HTML extraction loop, same shape as the plot loop. -/
def htmlLoop : Nat → List Char → Nat → List OutputData → List Char × List OutputData
  | 0, buffer, _, acc => (buffer, acc)
  | fuel + 1, buffer, lastIndex, acc =>
    match findMatchFrom htmlMatchAt (buffer.drop lastIndex) lastIndex with
    | none => (buffer, acc)
    | some (idx, full, content) =>
      htmlLoop fuel (removeFirstOcc full buffer) (idx + full.length)
        (acc ++ [⟨OutKind.html, jsTrim content, some "text/html".toList⟩])

/-- The residual classification at the end of `parseOutputBuffer`. -/
def classifyResidual (buffer : List Char) : List OutputData :=
  let b := jsTrim buffer
  if b = [] then []
  else if containsSub "Error:".toList b || containsSub "Error in".toList b then
    [⟨OutKind.error, b, none⟩]
  else
    let cleanedLines := (b.splitOn '\n').filter fun l =>
      l != ['>'] && l != ['+'] && !(jsTrim l).isEmpty
    if cleanedLines = [] then []
    else [⟨OutKind.text, List.intercalate ['\n'] cleanedLines, none⟩]

/-- `RPseudoterminalSimple.parseOutputBuffer`: clean the captured buffer,
extract plot and HTML events, classify the residue, clear the buffer. -/
def parseOutputBuffer (fsys : List (List Char × List Nat)) (st : ScrapeState) :
    List (List Char × List Nat) × ScrapeState :=
  let b := cleanBuffer st.outputBuffer
  let pl := plotLoop (b.length + 1) fsys b 0 []
  let hl := htmlLoop (pl.2.1.length + 1) pl.2.1 0 []
  (pl.1,
    { st with
        currentOutputs := st.currentOutputs ++ pl.2.2 ++ hl.2 ++ classifyResidual hl.1,
        outputBuffer := [] })

/-- `RPseudoterminalSimple.finishExecution`: called both by the completion
marker detection and by the 3-second timeout.  When a request is executing
it lowers `isExecuting`, parses whatever accumulated, and resolves the
pending promise with the classified events — always a resolution, never a
rejection. -/
def finishExecution (fsys : List (List Char × List Nat)) (st : ScrapeState) :
    List (List Char × List Nat) × ScrapeState × Option (Nat × List OutputData) :=
  if st.isExecuting = false then (fsys, st, none)
  else
    let st1 := { st with isExecuting := false }
    let pr := parseOutputBuffer fsys st1
    match pr.2.pendingResolve with
    | some r =>
      (pr.1, { pr.2 with pendingResolve := none }, some (r, pr.2.currentOutputs))
    | none => (pr.1, pr.2, none)

/-- `RPseudoterminalSimple.checkForCommandEnd`. -/
def checkForCommandEnd (fsys : List (List Char × List Nat)) (st : ScrapeState) :
    List (List Char × List Nat) × ScrapeState × Option (Nat × List OutputData) :=
  if !st.currentEndMarker.isEmpty && containsSub st.currentEndMarker st.outputBuffer then
    finishExecution fsys st
  else (fsys, st, none)

/-- `RPseudoterminalSimple.handleInput`: user keystrokes reach the R stdin
only when no request is executing. -/
def handleInput (st : ScrapeState) (data : List Char) : ScrapeState :=
  if st.rProcessAlive && !st.isExecuting then
    { st with stdinWrites := st.stdinWrites ++ [data] }
  else st

/-- The readiness flag set by `setupREnvironment`'s
`setTimeout(() => { isReady = true; ... }, 1500)`: a pure function of the
elapsed time; the observed session output does not occur in it. -/
def scrapeSetupReady (elapsedMs : Nat) (observedOutput : List (List Char)) : Bool :=
  1500 ≤ elapsedMs

/-- The readiness wait of the side-log controller's `ensureRSetup`:
`polls` are the `fs.existsSync(readyFile)` checks of the 30-second loop, and
`retryPoll` is the one check made after re-sourcing the setup file; if all
fail the controller throws its setup-timeout error. -/
def ensureRSetupWaits : List Bool → Bool → Bool
  | [], retryPoll => retryPoll
  | b :: rest, retryPoll => b || ensureRSetupWaits rest retryPoll

/-! ## Claim C7: correlation id minting -/

/-- A convenient concrete idle pseudoterminal state. -/
def initScrapeState : ScrapeState :=
  { rProcessAlive := true, isExecuting := false, outputBuffer := [],
    currentOutputs := [], pendingResolve := none, currentEndMarker := [],
    isReady := true, stdinWrites := [] }

def digitVal (c : Char) : Nat := c.toNat - 48

def digitsVal (ds : List Char) : Nat := ds.foldl (fun a c => 10 * a + digitVal c) 0

theorem digitsVal_append (ds : List Char) (c : Char) :
    digitsVal (ds ++ [c]) = 10 * digitsVal ds + digitVal c := by
  simp [digitsVal, List.foldl_append]

theorem digitVal_digitChar {n : Nat} (h : n < 10) :
    digitVal (Nat.digitChar n) = n := by
  interval_cases n <;> decide

theorem digitChar_isDigit {n : Nat} (h : n < 10) :
    (Nat.digitChar n).isDigit = true := by
  interval_cases n <;> decide

theorem jsNatToString_val : ∀ n : Nat, digitsVal (jsNatToString n) = n := by
  intro n
  induction n using Nat.strong_induction_on with
  | _ n ih =>
    by_cases h : n < 10
    · rw [jsNatToString, dif_pos h]
      simpa [digitsVal] using digitVal_digitChar h
    · rw [jsNatToString, dif_neg h]
      rw [digitsVal_append, ih (n / 10) (Nat.div_lt_self (by omega) (by omega)),
        digitVal_digitChar (Nat.mod_lt n (by omega))]
      omega

theorem jsNatToString_inj {a b : Nat} (h : jsNatToString a = jsNatToString b) :
    a = b := by
  have ha := jsNatToString_val a
  rw [h, jsNatToString_val] at ha
  omega

theorem jsNatToString_digits : ∀ n : Nat, ∀ c ∈ jsNatToString n, c.isDigit = true := by
  intro n
  induction n using Nat.strong_induction_on with
  | _ n ih =>
    by_cases h : n < 10
    · rw [jsNatToString, dif_pos h]
      intro c hc
      simp only [List.mem_singleton] at hc
      subst hc
      exact digitChar_isDigit h
    · rw [jsNatToString, dif_neg h]
      intro c hc
      rcases List.mem_append.mp hc with hc | hc
      · exact ih (n / 10) (Nat.div_lt_self (by omega) (by omega)) c hc
      · simp only [List.mem_singleton] at hc
        subst hc
        exact digitChar_isDigit (Nat.mod_lt n (by omega))

theorem jsNatToString_no_underscore (n : Nat) : '_' ∉ jsNatToString n := by
  intro hmem
  have := jsNatToString_digits n '_' hmem
  simp [Char.isDigit] at this

/-- Splitting at a separator neither side contains is unambiguous. -/
theorem sep_split {d1 d2 r1 r2 : List Char} (h1 : '_' ∉ d1) (h2 : '_' ∉ d2)
    (heq : d1 ++ '_' :: r1 = d2 ++ '_' :: r2) : d1 = d2 ∧ r1 = r2 := by
  induction d1 generalizing d2 with
  | nil =>
    cases d2 with
    | nil => simpa using heq
    | cons e d2' =>
      simp only [List.nil_append, List.cons_append, List.cons.injEq] at heq
      exact absurd (by simp [← heq.1]) h2
  | cons e d1' ih =>
    cases d2 with
    | nil =>
      simp only [List.nil_append, List.cons_append, List.cons.injEq] at heq
      exact absurd (by simp [heq.1]) h1
    | cons e2 d2' =>
      simp only [List.cons_append, List.cons.injEq] at heq
      obtain ⟨he, heq'⟩ := heq
      subst he
      have := ih (fun hm => h1 (by simp [hm])) (fun hm => h2 (by simp [hm])) heq'
      exact ⟨by simp [this.1], this.2⟩

/-- C7 (counterexample): the execution ids of `executeCode` are minted as
`Date.now().toString()`, so two distinct submissions issued in the same
millisecond carry identical correlation markers — the minted ids are not
unique per submission. -/
theorem c7_counterexample :
    "x <- 1".toList ≠ "y <- 2".toList ∧
      (executeCodeStart initScrapeState "x <- 1".toList 1 999).currentEndMarker =
        (executeCodeStart initScrapeState "y <- 2".toList 2 999).currentEndMarker := by
  constructor
  · decide
  · rfl

/-- C7 (amended): the scrape channel's execution id is exactly the
millisecond timestamp, so ids (and the sentinel markers built from them) are
distinct precisely for submissions whose timestamps differ; the side-log
channel's cell id additionally carries a random suffix, so it is also
distinct when the suffixes differ.  Same-millisecond submissions of the
scrape channel collide (see the counterexample). -/
theorem c7_id_distinctness (t t' : Nat) (r r' : List Char) (hne : t ≠ t') :
    mkExecId t ≠ mkExecId t' ∧
      endMarkerOf t ≠ endMarkerOf t' ∧
      (('_' ∉ r ∧ '_' ∉ r') → mkCellId t r ≠ mkCellId t' r') ∧
      (∀ r1 r2 : List Char, r1 ≠ r2 → mkCellId t r1 ≠ mkCellId t r2) := by
  have hid : mkExecId t ≠ mkExecId t' := fun h => hne (jsNatToString_inj h)
  refine ⟨hid, ?_, ?_, ?_⟩
  · intro h
    unfold endMarkerOf startMarkerOf at h
    have h2 := List.append_cancel_right h
    exact hid (List.append_cancel_left h2)
  · rintro ⟨hr, hr'⟩ h
    unfold mkCellId at h
    rw [List.append_assoc, List.append_assoc] at h
    have h2 := List.append_cancel_left h
    rw [show jsNatToString t ++ '_' :: r = jsNatToString t ++ '_' :: r from rfl] at h2
    have := sep_split (jsNatToString_no_underscore t) (jsNatToString_no_underscore t') h2
    exact hne (jsNatToString_inj this.1)
  · intro r1 r2 hr h
    unfold mkCellId at h
    rw [List.append_assoc, List.append_assoc] at h
    have h2 := List.append_cancel_left h
    have h3 := List.append_cancel_left h2
    exact hr (by simpa using h3)

/-- Witness for C7's amended statement at concrete inputs. -/
theorem c7_id_distinctness_witness :
    (1 : Nat) ≠ 2 ∧ mkExecId 1 ≠ mkExecId 2 ∧
      mkCellId 1 "abc".toList ≠ mkCellId 1 "xyz".toList := by
  refine ⟨by decide, (c7_id_distinctness 1 2 [] [] (by decide)).1, ?_⟩
  exact (c7_id_distinctness 1 2 [] [] (by decide)).2.2.2 "abc".toList "xyz".toList
    (by decide)

/-! ## Claims C5 and C6: the presentation filter -/

theorem filter_pred_eq (options : YamlOptions) (o : CellOutputRec) :
    (if o.rtype = "MESSAGE".toList then options.message
      else if o.rtype = "WARNING".toList then options.warning
      else if o.rtype = "ERROR".toList then options.error
      else if o.rtype = "CELL_START".toList ∨ o.rtype = "CELL_END".toList then false
      else true) = specKeep options o := by
  by_cases h1 : o.rtype = "MESSAGE".toList
  · rw [if_pos h1]
    unfold specKeep
    rw [show recKind o = EventKind.message from by unfold recKind; rw [h1]; decide]
  · rw [if_neg h1]
    by_cases h2 : o.rtype = "WARNING".toList
    · rw [if_pos h2]
      unfold specKeep
      rw [show recKind o = EventKind.warning from by unfold recKind; rw [h2]; decide]
    · rw [if_neg h2]
      by_cases h3 : o.rtype = "ERROR".toList
      · rw [if_pos h3]
        unfold specKeep
        rw [show recKind o = EventKind.error from by unfold recKind; rw [h3]; decide]
      · rw [if_neg h3]
        by_cases h4 : o.rtype = "CELL_START".toList ∨ o.rtype = "CELL_END".toList
        · rw [if_pos h4]
          unfold specKeep
          have hk : recKind o = EventKind.structural := by
            unfold recKind
            rcases h4 with h4 | h4 <;> rw [h4] <;> decide
          rw [hk]
        · rw [if_neg h4]
          unfold specKeep
          by_cases h5 : o.rtype = "OUTPUT".toList
          · rw [show recKind o = EventKind.text from by unfold recKind; rw [h5]; decide]
          · by_cases h6 : o.rtype = "PLOT".toList
            · rw [show recKind o = EventKind.image from by
                unfold recKind; rw [h6]; decide]
            · by_cases h7 : o.rtype = "HTML".toList
              · rw [show recKind o = EventKind.markup from by
                  unfold recKind; rw [h7]; decide]
              · have hk : recKind o = EventKind.other := by
                  unfold recKind
                  rw [if_neg h5, if_neg h1, if_neg h2, if_neg h3, if_neg h6,
                    if_neg h7, if_neg h4]
                rw [hk]

/-- C5: For every record list and boolean policy, the presentation filter
(`OutputWatcher.filterOutputs`) drops exactly the Message, Warning and Error
events whose kind the policy excludes and never drops a Text, Image or
Markup event (it agrees with the spec-side policy `specKeep` everywhere);
and, in particular, under the policy `warning: false` a request producing
one WARNING and one OUTPUT record (plus its structural CELL_END) returns
only the Text event. -/
theorem c5_presentation_filter :
    (∀ (outputs : List CellOutputRec) (options : YamlOptions),
        filterOutputs outputs options = outputs.filter (specKeep options)) ∧
      deliverToCaller
          [⟨"WARNING".toList, "boo".toList, "c1".toList⟩,
            ⟨"OUTPUT".toList, "hi".toList, "c1".toList⟩,
            ⟨"CELL_END".toList, [], "c1".toList⟩]
          ⟨none, none, some false, none⟩ =
        [⟨"OUTPUT".toList, "hi".toList, "c1".toList⟩] := by
  constructor
  · intro outputs options
    unfold filterOutputs
    exact List.filter_congr fun o _ => filter_pred_eq options o
  · decide

/-- C6: No list delivered to a caller (every delivery goes through
`filterOutputs`, from both branches of `waitForCell`) contains an event
derived from a CELL_START or CELL_END record: the markers are consumed as
structural signals and always filtered out. -/
theorem c6_structural_never_delivered :
    ∀ (outputs : List CellOutputRec) (yamlOptions : PartialYamlOptions),
      ∀ o ∈ deliverToCaller outputs yamlOptions,
        o.rtype ≠ "CELL_START".toList ∧ o.rtype ≠ "CELL_END".toList := by
  intro outputs yamlOptions o ho
  unfold deliverToCaller filterOutputs at ho
  have hp := List.of_mem_filter ho
  constructor
  · intro h
    rw [h] at hp
    rw [if_neg (by decide), if_neg (by decide), if_neg (by decide),
      if_pos (by decide)] at hp
    exact Bool.noConfusion hp
  · intro h
    rw [h] at hp
    rw [if_neg (by decide), if_neg (by decide), if_neg (by decide),
      if_pos (by decide)] at hp
    exact Bool.noConfusion hp

/-- Witness for C6 at a concrete delivered list. -/
theorem c6_structural_never_delivered_witness :
    (⟨"OUTPUT".toList, "hi".toList, "c1".toList⟩ : CellOutputRec) ∈
        deliverToCaller
          [⟨"OUTPUT".toList, "hi".toList, "c1".toList⟩,
            ⟨"CELL_END".toList, [], "c1".toList⟩]
          ⟨none, none, none, none⟩ ∧
      (⟨"OUTPUT".toList, "hi".toList, "c1".toList⟩ : CellOutputRec).rtype ≠
          "CELL_START".toList ∧
      (⟨"OUTPUT".toList, "hi".toList, "c1".toList⟩ : CellOutputRec).rtype ≠
        "CELL_END".toList := by
  refine ⟨by decide, ?_⟩
  exact c6_structural_never_delivered
    [⟨"OUTPUT".toList, "hi".toList, "c1".toList⟩, ⟨"CELL_END".toList, [], "c1".toList⟩]
    ⟨none, none, none, none⟩
    ⟨"OUTPUT".toList, "hi".toList, "c1".toList⟩ (by decide)

/-! ## Claim C9: correlation-table lifecycle -/

theorem lookupCallback_erase_self (cbs : List (List Char × Nat)) (cid : List Char) :
    lookupCallback (eraseCallback cbs cid) cid = none := by
  unfold lookupCallback eraseCallback
  rw [List.find?_eq_none.mpr]
  · rfl
  · intro e he
    have := List.of_mem_filter he
    simp only [bne_iff_ne, ne_eq] at this
    simp [this]

theorem lookupCallback_erase_mono (cbs : List (List Char × Nat)) (cid cid' : List Char)
    (h : lookupCallback cbs cid = none) :
    lookupCallback (eraseCallback cbs cid') cid = none := by
  unfold lookupCallback at h ⊢
  unfold eraseCallback
  have hf : cbs.find? (fun e => e.1 == cid) = none := by
    cases hf : cbs.find? (fun e => e.1 == cid) with
    | none => rfl
    | some e => rw [hf] at h; simp at h
  have hall := List.find?_eq_none.mp hf
  rw [List.find?_eq_none.mpr]
  · rfl
  · intro e he
    exact hall e (List.mem_of_mem_filter he)

theorem processRecord_cases (st : WatcherState) (o : CellOutputRec) :
    processRecord st o = ({ st with cellOutputs := storeOutput st.cellOutputs o }, []) ∨
      (∃ r, o.rtype = "CELL_END".toList ∧
        lookupCallback st.cellCallbacks o.cellId = some r ∧
        processRecord st o =
          ({ st with cellOutputs := storeOutput st.cellOutputs o,
                     cellCallbacks := eraseCallback st.cellCallbacks o.cellId },
            [(o.cellId, r,
              (lookupCell (storeOutput st.cellOutputs o) o.cellId).getD [])])) := by
  unfold processRecord
  by_cases h : o.rtype = "CELL_END".toList
  · rw [if_pos h]
    cases hcb : lookupCallback st.cellCallbacks o.cellId with
    | none => left; rfl
    | some r => right; exact ⟨r, h, rfl, rfl⟩
  · rw [if_neg h]
    left
    rfl

theorem processRecords_nodeliv {cid : List Char} :
    ∀ (recs : List CellOutputRec) (st : WatcherState),
      lookupCallback st.cellCallbacks cid = none →
      ((processRecords st recs).2.filter fun d => d.1 == cid) = [] ∧
        lookupCallback (processRecords st recs).1.cellCallbacks cid = none := by
  intro recs
  induction recs with
  | nil => intro st h; exact ⟨rfl, h⟩
  | cons o os ih =>
    intro st h
    unfold processRecords
    rcases processRecord_cases st o with heq | ⟨r, hty, hcb, heq⟩
    · rw [heq]
      have hrec := ih { st with cellOutputs := storeOutput st.cellOutputs o } h
      simpa using hrec
    · rw [heq]
      have hne : (o.cellId == cid) = false := by
        by_cases hx : o.cellId = cid
        · rw [hx] at hcb; rw [hcb] at h; simp at h
        · simp [hx]
      have hnone' : lookupCallback (eraseCallback st.cellCallbacks o.cellId) cid = none :=
        lookupCallback_erase_mono _ _ _ h
      have hrec := ih ⟨st.pendingContent, storeOutput st.cellOutputs o,
        eraseCallback st.cellCallbacks o.cellId⟩ hnone'
      constructor
      · simpa [List.filter_append, hne] using hrec.1
      · exact hrec.2

theorem resolver_at_most_once :
    ∀ (recs : List CellOutputRec) (st : WatcherState) (cid : List Char),
      ((processRecords st recs).2.filter fun d => d.1 == cid).length ≤ 1 := by
  intro recs
  induction recs with
  | nil => intro st cid; simp [processRecords]
  | cons o os ih =>
    intro st cid
    unfold processRecords
    rcases processRecord_cases st o with heq | ⟨r, hty, hcb, heq⟩
    · rw [heq]
      simpa using ih _ cid
    · rw [heq]
      by_cases hx : o.cellId = cid
      · subst hx
        have hnone := lookupCallback_erase_self st.cellCallbacks o.cellId
        have hrest := (processRecords_nodeliv os
          { st with cellOutputs := storeOutput st.cellOutputs o,
                    cellCallbacks := eraseCallback st.cellCallbacks o.cellId } hnone).1
        simp [List.filter_append, hrest]
      · have hne : (o.cellId == cid) = false := by simp [hx]
        simpa [List.filter_append, hne] using ih _ cid

theorem find?_store_map (m : List (List Char × List CellOutputRec))
    (o : CellOutputRec) (cid : List Char) :
    (m.find? ((fun e => e.1 == cid) ∘
        fun e => if e.1 == o.cellId then (e.1, e.2 ++ [o]) else e)) =
      m.find? fun e => e.1 == cid := by
  induction m with
  | nil => rfl
  | cons e m' ih =>
    simp only [List.find?_cons]
    have hfst : ((fun e => e.1 == cid) ∘
        fun e => if e.1 == o.cellId then (e.1, e.2 ++ [o]) else e) e = (e.1 == cid) := by
      by_cases hx : (e.1 == o.cellId) = true <;> simp [Function.comp, hx]
    rw [hfst]
    cases hc : (e.1 == cid) with
    | true => rfl
    | false => exact ih

theorem lookupCell_store_self (m : List (List Char × List CellOutputRec))
    (o : CellOutputRec) :
    (lookupCell (storeOutput m o) o.cellId).isSome = true := by
  unfold storeOutput
  by_cases h : (m.find? fun e => e.1 == o.cellId).isSome
  · rw [if_pos h]
    unfold lookupCell
    rw [List.find?_map, find?_store_map]
    simpa using h
  · rw [if_neg h]
    unfold lookupCell
    rw [List.find?_append]
    cases hm : m.find? (fun e => e.1 == o.cellId) with
    | some e => rw [hm] at h; simp at h
    | none => simp [List.find?]

theorem lookupCell_store_mono (m : List (List Char × List CellOutputRec))
    (o : CellOutputRec) (cid : List Char)
    (h : (lookupCell m cid).isSome = true) :
    (lookupCell (storeOutput m o) cid).isSome = true := by
  unfold storeOutput
  by_cases hs : (m.find? fun e => e.1 == o.cellId).isSome
  · rw [if_pos hs]
    unfold lookupCell at h ⊢
    rw [List.find?_map, find?_store_map]
    simpa using h
  · rw [if_neg hs]
    unfold lookupCell at h ⊢
    rw [List.find?_append]
    cases hm : m.find? (fun e => e.1 == cid) with
    | none => rw [hm] at h; simp at h
    | some e => simp

theorem processRecords_cell_persists :
    ∀ (recs : List CellOutputRec) (st : WatcherState) (cid : List Char),
      (lookupCell st.cellOutputs cid).isSome = true →
      (lookupCell (processRecords st recs).1.cellOutputs cid).isSome = true := by
  intro recs
  induction recs with
  | nil => intro st cid h; exact h
  | cons o os ih =>
    intro st cid h
    unfold processRecords
    rcases processRecord_cases st o with heq | ⟨r, hty, hcb, heq⟩ <;> rw [heq] <;>
      exact ih _ cid (lookupCell_store_mono _ _ _ h)

theorem delivery_facts :
    ∀ (recs : List CellOutputRec) (st : WatcherState),
      ∀ d ∈ (processRecords st recs).2,
        lookupCallback (processRecords st recs).1.cellCallbacks d.1 = none ∧
          (lookupCell (processRecords st recs).1.cellOutputs d.1).isSome = true := by
  intro recs
  induction recs with
  | nil => intro st d hd; simp [processRecords] at hd
  | cons o os ih =>
    intro st d hd
    unfold processRecords at hd ⊢
    rcases processRecord_cases st o with heq | ⟨r, hty, hcb, heq⟩
    · rw [heq] at hd ⊢
      simp only [List.nil_append] at hd
      exact ih _ d hd
    · rw [heq] at hd ⊢
      simp only [List.cons_append, List.nil_append, List.mem_cons] at hd
      rcases hd with rfl | hd
      · constructor
        · exact (processRecords_nodeliv os _
            (lookupCallback_erase_self st.cellCallbacks o.cellId)).2
        · exact processRecords_cell_persists os _ _ (lookupCell_store_self _ _)
      · exact ih _ d hd

/-- C9 (counterexample): after a request resolves through a CELL_END, the
accumulated-events entry of the correlation table is still present (it is
never deleted on delivery), and the timeout path deregisters nothing — the
dangling resolver stays in `cellCallbacks`. -/
theorem c9_counterexample :
    (timeoutStep ⟨[], [], [("c1".toList, 7)]⟩).cellCallbacks = [("c1".toList, 7)] ∧
      (processRecords ⟨[], [], [("c1".toList, 7)]⟩
          [⟨"OUTPUT".toList, "hi".toList, "c1".toList⟩,
            ⟨"CELL_END".toList, [], "c1".toList⟩]).2 ≠ [] ∧
      lookupCell (processRecords ⟨[], [], [("c1".toList, 7)]⟩
          [⟨"OUTPUT".toList, "hi".toList, "c1".toList⟩,
            ⟨"CELL_END".toList, [], "c1".toList⟩]).1.cellOutputs "c1".toList ≠
        none := by
  exact ⟨rfl, by decide, by decide⟩

/-- C9 (amended): the resolver entry is deleted exactly on delivery and so
fires at most once per correlation id; the accumulated-events entry is not
deleted by delivery (it persists in the table); and the timeout path of
`executeSingleCell` deregisters nothing at all, so the resolver of a
timed-out request remains registered until a late CELL_END fires it once
into the already-settled race. -/
theorem c9_correlation_lifecycle :
    (∀ (recs : List CellOutputRec) (st : WatcherState) (cid : List Char),
        ((processRecords st recs).2.filter fun d => d.1 == cid).length ≤ 1) ∧
      (∀ (recs : List CellOutputRec) (st : WatcherState),
        ∀ d ∈ (processRecords st recs).2,
          lookupCallback (processRecords st recs).1.cellCallbacks d.1 = none ∧
            (lookupCell (processRecords st recs).1.cellOutputs d.1).isSome = true) ∧
      ∀ st : WatcherState, timeoutStep st = st := by
  exact ⟨fun recs st cid => resolver_at_most_once recs st cid,
    delivery_facts, fun _ => rfl⟩

/-- Witness for C9's amended statement at a concrete trace. -/
theorem c9_correlation_lifecycle_witness :
    ((processRecords ⟨[], [], [("c1".toList, 7)]⟩
        [⟨"OUTPUT".toList, "hi".toList, "c1".toList⟩,
          ⟨"CELL_END".toList, [], "c1".toList⟩]).2.filter
        fun d => d.1 == "c1".toList).length ≤ 1 ∧
      ("c1".toList, 7,
          [(⟨"OUTPUT".toList, "hi".toList, "c1".toList⟩ : CellOutputRec),
            ⟨"CELL_END".toList, [], "c1".toList⟩]) ∈
        (processRecords ⟨[], [], [("c1".toList, 7)]⟩
          [⟨"OUTPUT".toList, "hi".toList, "c1".toList⟩,
            ⟨"CELL_END".toList, [], "c1".toList⟩]).2 ∧
      lookupCallback (processRecords ⟨[], [], [("c1".toList, 7)]⟩
          [⟨"OUTPUT".toList, "hi".toList, "c1".toList⟩,
            ⟨"CELL_END".toList, [], "c1".toList⟩]).1.cellCallbacks "c1".toList =
        none := by
  refine ⟨c9_correlation_lifecycle.1 _ _ _, by decide, ?_⟩
  exact (c9_correlation_lifecycle.2.1
    [⟨"OUTPUT".toList, "hi".toList, "c1".toList⟩, ⟨"CELL_END".toList, [], "c1".toList⟩]
    ⟨[], [], [("c1".toList, 7)]⟩
    ("c1".toList, 7,
      [⟨"OUTPUT".toList, "hi".toList, "c1".toList⟩, ⟨"CELL_END".toList, [], "c1".toList⟩])
    (by decide)).1

/-! ## Claim C2: timeout semantics -/

theorem parseOutputBuffer_preserves (fsys : List (List Char × List Nat))
    (st : ScrapeState) :
    (parseOutputBuffer fsys st).2.pendingResolve = st.pendingResolve ∧
      (parseOutputBuffer fsys st).2.isExecuting = st.isExecuting := by
  unfold parseOutputBuffer
  exact ⟨rfl, rfl⟩

theorem executeCodeStart_starts (st : ScrapeState) (code : List Char) (reqId now : Nat) :
    (executeCodeStart st code reqId now).isExecuting = true ∧
      (executeCodeStart st code reqId now).pendingResolve = some reqId := by
  unfold executeCodeStart
  by_cases h : st.rProcessAlive <;> simp [h]

/-- C2 (counterexample): on the side-log channel, a submission whose
CELL_END does not arrive within the 60-second deadline makes
`executeSingleCell`'s `Promise.race` reject with the bare
`Execution timeout` error — the accumulated events are discarded, contrary
to the claim that every timed-out submit resolves with them. -/
theorem c2_counterexample :
    executeSingleCellResult false [⟨"OUTPUT".toList, "hi".toList, "c1".toList⟩]
        ⟨none, none, none, none⟩ =
      Except.error "Execution timeout".toList ∧
      ∀ outs : List CellOutputRec,
        executeSingleCellResult false [⟨"OUTPUT".toList, "hi".toList, "c1".toList⟩]
            ⟨none, none, none, none⟩ ≠
          Except.ok outs := by
  exact ⟨rfl, fun outs h => Except.noConfusion h⟩

/-- C2 (amended): on the direct-scrape channel the claim holds:
`finishExecution` — reached from the 3-second deadline timer — resolves the
pending request with every event classified from the bytes accumulated
before the deadline (never a bare failure), resets the session to Ready
(`isExecuting = false`), and an immediately following `executeCode` proceeds
unconditionally.  On the side-log channel the timeout instead rejects and
discards the accumulated events (see the counterexample). -/
theorem c2_timeout_partial_results (fsys : List (List Char × List Nat))
    (st : ScrapeState) (r : Nat)
    (hex : st.isExecuting = true) (hres : st.pendingResolve = some r) :
    (finishExecution fsys st).2.2 =
        some (r, (parseOutputBuffer fsys { st with isExecuting := false }).2.currentOutputs) ∧
      (finishExecution fsys st).2.1.isExecuting = false ∧
      (finishExecution fsys st).2.1.pendingResolve = none ∧
      ∀ (code : List Char) (reqId now : Nat),
        (executeCodeStart (finishExecution fsys st).2.1 code reqId now).isExecuting = true ∧
          (executeCodeStart (finishExecution fsys st).2.1 code reqId now).pendingResolve =
            some reqId := by
  have hpres := parseOutputBuffer_preserves fsys { st with isExecuting := false }
  have hpr : (parseOutputBuffer fsys { st with isExecuting := false }).2.pendingResolve =
      some r := by rw [hpres.1]; exact hres
  have hie : (parseOutputBuffer fsys { st with isExecuting := false }).2.isExecuting =
      false := by rw [hpres.2]
  have hfin : finishExecution fsys st =
      ((parseOutputBuffer fsys { st with isExecuting := false }).1,
        { (parseOutputBuffer fsys { st with isExecuting := false }).2 with
            pendingResolve := none },
        some (r, (parseOutputBuffer fsys { st with isExecuting := false }).2.currentOutputs)) := by
    unfold finishExecution
    rw [if_neg (by simp [hex])]
    rw [show (parseOutputBuffer fsys { st with isExecuting := false }) =
        ((parseOutputBuffer fsys { st with isExecuting := false }).1,
          (parseOutputBuffer fsys { st with isExecuting := false }).2) from rfl]
    simp only [hpr]
  rw [hfin]
  refine ⟨rfl, by simpa using hie, rfl, ?_⟩
  intro code reqId now
  exact executeCodeStart_starts _ code reqId now

/-- Witness for C2's amended statement: a concrete executing session with a
pending request and a nonempty captured buffer. -/
theorem c2_timeout_partial_results_witness :
    (finishExecution []
          ⟨true, true, "hello\n".toList, [], some 5, "m".toList, true, []⟩).2.2 =
        some (5, (parseOutputBuffer []
            { (⟨true, true, "hello\n".toList, [], some 5, "m".toList, true, []⟩ : ScrapeState)
                with isExecuting := false }).2.currentOutputs) ∧
      (finishExecution []
          ⟨true, true, "hello\n".toList, [], some 5, "m".toList, true, []⟩).2.1.isExecuting =
        false ∧
      (executeCodeStart (finishExecution []
            ⟨true, true, "hello\n".toList, [], some 5, "m".toList, true, []⟩).2.1
          "1 + 1".toList 6 1000).isExecuting = true := by
  have h := c2_timeout_partial_results []
    ⟨true, true, "hello\n".toList, [], some 5, "m".toList, true, []⟩ 5 rfl rfl
  exact ⟨h.1, h.2.1, (h.2.2.2 "1 + 1".toList 6 1000).1⟩

/-! ## Claim C3: submissions are not serialized -/

/-- C3: the code contradicts the claim.  A second `executeCode` call issued
while the session is still Executing does not await the first: its
instrumented code is written to stdin immediately (three more writes), the
pending resolver is overwritten with the second request's, and the eventual
`finishExecution` resolves the second request — the first submission never
resolves at all.  Evaluated at the failing input: submission 1
(`Sys.sleep(5)`) then submission 2 (`1 + 1`) before any completion. -/
theorem c3_no_serialization_trace :
    (executeCodeStart initScrapeState "Sys.sleep(5)".toList 1 100).isExecuting = true ∧
      (executeCodeStart (executeCodeStart initScrapeState "Sys.sleep(5)".toList 1 100)
          "1 + 1".toList 2 200).pendingResolve = some 2 ∧
      (executeCodeStart (executeCodeStart initScrapeState "Sys.sleep(5)".toList 1 100)
            "1 + 1".toList 2 200).stdinWrites.length =
        (executeCodeStart initScrapeState "Sys.sleep(5)".toList 1 100).stdinWrites.length
          + 3 ∧
      ((finishExecution [] (executeCodeStart (executeCodeStart initScrapeState
            "Sys.sleep(5)".toList 1 100) "1 + 1".toList 2 200)).2.2.map
          Prod.fst) = some 2 := by
  refine ⟨by decide, by decide, by decide, by decide⟩

/-! ## Claim C4: PLOT classification -/

theorem plotLoop_found (fuel : Nat) (fsys : List (List Char × List Nat))
    (buffer : List Char) (lastIndex : Nat) (acc : List OutputData)
    (idx : Nat) (full rawPath : List Char) (bytes : List Nat)
    (h : findMatchFrom plotMatchAt (buffer.drop lastIndex) lastIndex =
      some (idx, full, rawPath))
    (hb : fsLookup fsys (jsTrim rawPath) = some bytes) :
    plotLoop (fuel + 1) fsys buffer lastIndex acc =
      plotLoop fuel (fsErase fsys (jsTrim rawPath)) (removeFirstOcc full buffer)
        (idx + full.length)
        (acc ++ [⟨OutKind.image, base64Encode bytes, some "image/png".toList⟩]) := by
  conv_lhs => rw [plotLoop.eq_def]
  simp only [h, hb]

theorem plotLoop_done (fuel : Nat) (fsys : List (List Char × List Nat))
    (buffer : List Char) (lastIndex : Nat) (acc : List OutputData)
    (h : findMatchFrom plotMatchAt (buffer.drop lastIndex) lastIndex = none) :
    plotLoop (fuel + 1) fsys buffer lastIndex acc = (fsys, buffer, acc) := by
  unfold plotLoop
  rw [h]

/-- C4 (counterexample): on the side-log channel, a PLOT record for an
existing three-byte file does produce exactly one Image event with the
file's bytes, but after classification the file still exists — the PLOT
arm of `cellOutputsToNotebookOutput` never unlinks it, contradicting the
claim that the referenced file no longer exists afterward. -/
theorem c4_counterexample :
    (cellOutputsToNotebookOutput [("/tmp/p.png".toList, [1, 2, 3])]
        [⟨"PLOT".toList, "/tmp/p.png".toList, "c1".toList⟩]).1 =
      [⟨ItemData.binItem [1, 2, 3], "image/png".toList⟩] ∧
      fsLookup (cellOutputsToNotebookOutput [("/tmp/p.png".toList, [1, 2, 3])]
          [⟨"PLOT".toList, "/tmp/p.png".toList, "c1".toList⟩]).2
        "/tmp/p.png".toList = some [1, 2, 3] := by
  decide

/-- C4 (amended): a PLOT record for an existing file yields exactly one
Image event carrying the file's bytes on both channels, but only the
direct-scrape channel deletes the file afterward.  Side-log: the record
maps to the single binary item and the file system is untouched.  Scrape:
a buffer holding one plot marker produces the single base64 image event,
the marker is cut from the buffer, and the file is unlinked. -/
theorem c4_plot_classification :
    (∀ (fsys : List (List Char × List Nat)) (path cid : List Char) (bytes : List Nat),
        fsLookup fsys path = some bytes →
        cellOutputsToNotebookOutput fsys [⟨"PLOT".toList, path, cid⟩] =
          ([⟨ItemData.binItem bytes, "image/png".toList⟩], fsys)) ∧
      (∀ (f : Nat) (fsys : List (List Char × List Nat))
          (A M C rawPath : List Char) (bytes : List Nat),
        findMatchFrom plotMatchAt (A ++ M ++ C) 0 = some (A.length, M, rawPath) →
        removeFirstOcc M (A ++ M ++ C) = A ++ C →
        findMatchFrom plotMatchAt ((A ++ C).drop (A.length + M.length))
            (A.length + M.length) = none →
        fsLookup fsys (jsTrim rawPath) = some bytes →
        plotLoop (f + 2) fsys (A ++ M ++ C) 0 [] =
          (fsErase fsys (jsTrim rawPath), A ++ C,
            [⟨OutKind.image, base64Encode bytes, some "image/png".toList⟩])) := by
  constructor
  · intro fsys path cid bytes h
    unfold cellOutputsToNotebookOutput
    simp only [List.map_cons, List.map_nil]
    unfold cellOutputToItems
    dsimp only
    rw [if_neg (by decide), if_pos (by decide)]
    simp only [h]
    rfl
  · intro f fsys A M C rawPath bytes h1 h2 h3 h4
    have h1' : findMatchFrom plotMatchAt ((A ++ M ++ C).drop 0) 0 =
        some (A.length, M, rawPath) := by rw [List.drop_zero]; exact h1
    rw [plotLoop_found (f + 1) fsys (A ++ M ++ C) 0 [] A.length M rawPath bytes h1' h4,
      h2, plotLoop_done f _ _ _ _ h3]
    rfl

/-- Witness for C4's amended statement: a concrete file system and a buffer
with one plot marker, on both channels. -/
theorem c4_plot_classification_witness :
    cellOutputsToNotebookOutput [("/tmp/p.png".toList, [9, 8, 7])]
        [⟨"PLOT".toList, "/tmp/p.png".toList, "c1".toList⟩] =
      ([⟨ItemData.binItem [9, 8, 7], "image/png".toList⟩],
        [("/tmp/p.png".toList, [9, 8, 7])]) ∧
      plotLoop 3 [("/tmp/p.png".toList, [9, 8, 7])]
          ("x\n".toList ++ "###QUARTO_PLOT###/tmp/p.png###END_PLOT###".toList ++ [])
          0 [] =
        (fsErase [("/tmp/p.png".toList, [9, 8, 7])] (jsTrim "/tmp/p.png".toList),
          "x\n".toList ++ [],
          [⟨OutKind.image, base64Encode [9, 8, 7], some "image/png".toList⟩]) := by
  refine ⟨c4_plot_classification.1 _ _ "c1".toList _ (by decide), ?_⟩
  exact c4_plot_classification.2 1 [("/tmp/p.png".toList, [9, 8, 7])]
    "x\n".toList "###QUARTO_PLOT###/tmp/p.png###END_PLOT###".toList []
    "/tmp/p.png".toList [9, 8, 7] (by decide) (by decide) (by decide) (by decide)

/-! ## Claim C8: readiness signalling -/

/-- C8 (counterexample): the direct-scrape channel declares the session
Ready purely because the fixed 1500 ms timer fired: with no session output
observed at all the flag goes up, one millisecond earlier it does not, and
observing output changes nothing — readiness is a function of elapsed time
only, contradicting the claim that Ready is never reached without an
observed readiness signal. -/
theorem c8_counterexample :
    scrapeSetupReady 1500 [] = true ∧
      scrapeSetupReady 1499 ["R version 4.3.0 -- banner".toList] = false ∧
      scrapeSetupReady 1500 ["R version 4.3.0 -- banner".toList] =
        scrapeSetupReady 1500 [] := by
  decide

/-- C8 (amended): the side-log controller's `ensureRSetup` declares the
Session Ready exactly when some `existsSync` poll of the ready file (or the
single post-retry check) observed it, throwing otherwise; the direct-scrape
channel's `setupREnvironment` instead raises its readiness flag as a
function of elapsed time alone, independent of every observation. -/
theorem c8_readiness (polls : List Bool) (retryPoll : Bool) :
    (ensureRSetupWaits polls retryPoll = true ↔
      (∃ b ∈ polls, b = true) ∨ retryPoll = true) ∧
      ∀ (t : Nat) (obs obs' : List (List Char)),
        scrapeSetupReady t obs = scrapeSetupReady t obs' := by
  constructor
  · induction polls with
    | nil => simp [ensureRSetupWaits]
    | cons b rest ih =>
      cases b
      · simpa [ensureRSetupWaits] using ih
      · simp [ensureRSetupWaits]
  · intro t obs obs'
    rfl

/-- Witness for C8's amended statement at a concrete poll history. -/
theorem c8_readiness_witness :
    (ensureRSetupWaits [false, true] false = true ↔
      (∃ b ∈ [false, true], b = true) ∨ false = true) ∧
      scrapeSetupReady 1600 [] =
        scrapeSetupReady 1600 ["R version 4.3.0 -- banner".toList] := by
  exact ⟨(c8_readiness [false, true] false).1,
    (c8_readiness [false, true] false).2 1600 [] ["R version 4.3.0 -- banner".toList]⟩

/-! ## Claim C10: live user input during execution -/

/-- C10 (counterexample): a chunk the user types while a request is
Executing is silently discarded: `handleInput` leaves the state — in
particular the list of writes reaching the R process's stdin — unchanged,
contradicting the claim that typed input is always forwarded. -/
theorem c10_counterexample :
    handleInput ⟨true, true, [], [], some 1, [], true, []⟩ "ls()\n".toList =
      ⟨true, true, [], [], some 1, [], true, []⟩ ∧
      (handleInput ⟨true, true, [], [], some 1, [], true, []⟩
          "ls()\n".toList).stdinWrites = [] := by
  decide

/-- C10 (amended): `handleInput` forwards the typed chunk to the R stdin
exactly when the process is alive and no request is Executing; while a
request is Executing, or once the process is dead, the chunk is dropped
and the state is unchanged. -/
theorem c10_input_forwarding (st : ScrapeState) (data : List Char) :
    (st.rProcessAlive = true → st.isExecuting = false →
        handleInput st data = { st with stdinWrites := st.stdinWrites ++ [data] }) ∧
      (st.isExecuting = true → handleInput st data = st) ∧
      (st.rProcessAlive = false → handleInput st data = st) := by
  unfold handleInput
  refine ⟨fun h1 h2 => ?_, fun h => ?_, fun h => ?_⟩
  · rw [if_pos (by simp [h1, h2])]
  · rw [if_neg (by simp [h])]
  · rw [if_neg (by simp [h])]

/-- Witness for C10's amended statement: forwarding when idle, dropping
while executing. -/
theorem c10_input_forwarding_witness :
    handleInput initScrapeState "ls()\n".toList =
      { initScrapeState with
          stdinWrites := initScrapeState.stdinWrites ++ ["ls()\n".toList] } ∧
      handleInput ⟨true, true, [], [], some 2, [], true, []⟩ "ls()\n".toList =
        ⟨true, true, [], [], some 2, [], true, []⟩ := by
  exact ⟨(c10_input_forwarding initScrapeState "ls()\n".toList).1 rfl rfl,
    (c10_input_forwarding ⟨true, true, [], [], some 2, [], true, []⟩
      "ls()\n".toList).2.1 rfl⟩
